import Mathlib

/-
Verification of the CEP canonicalization and identity core.

Text is modelled as the list of Unicode scalar values of the string
(`Str := List Nat`); Rust `f64` values that feed only comparisons and
fixed-point rendering are modelled as exact rationals; `u8`/`u32` counters
are modelled as `Nat`.  Unicode character properties (`to_lowercase`,
NFD decomposition, `is_alphanumeric`, ...) are table-driven on the
Basic-Latin and Latin-1 repertoire actually exercised by the pipeline;
codepoints outside the tables are left fixed, mirroring the identity
behaviour of the corresponding Rust functions outside their mapped ranges.
-/

namespace CEP

/-- Unicode text as a list of scalar values. -/
abbrev Str := List Nat

/-- Decode a Lean string literal into the scalar-value representation. -/
def ofString (s : String) : Str := s.data.map Char.toNat

/-- Association lookup with `Nat` keys (used for character tables). -/
def alFindC (k : Nat) : List (Nat × List Nat) → Option (List Nat)
  | [] => none
  | p :: rest => if p.1 = k then some p.2 else alFindC k rest

/-- Association lookup with `Str` keys (used for token tables). -/
def alFindS (k : Str) : List (Str × Str) → Option Str
  | [] => none
  | p :: rest => if p.1 = k then some p.2 else alFindS k rest

/-- Rust `char::to_lowercase`, restricted to the ASCII and Latin-1 uppercase
letters (the repertoire the normalizer's inputs exercise); all other
codepoints are fixed. -/
def rustToLower (c : Nat) : Nat :=
  if 65 ≤ c ∧ c ≤ 90 then c + 32
  else if 0xC0 ≤ c ∧ c ≤ 0xDE ∧ c ≠ 0xD7 then c + 32
  else c

/-- Rust `str::to_uppercase`, restricted to ASCII and Latin-1 lowercase
letters; all other codepoints are fixed. -/
def rustToUpper (c : Nat) : Nat :=
  if 97 ≤ c ∧ c ≤ 122 then c - 32
  else if 0xE0 ≤ c ∧ c ≤ 0xFE ∧ c ≠ 0xF7 then c - 32
  else c

/-- NFD decompositions of the precomposed lowercase Latin-1 letters (the
pipeline lowercases before decomposing, so only lowercase forms occur). -/
def nfdTable : List (Nat × List Nat) :=
  [ (0xE0, [97, 0x300]), (0xE1, [97, 0x301]), (0xE2, [97, 0x302])
  , (0xE3, [97, 0x303]), (0xE4, [97, 0x308]), (0xE5, [97, 0x30A])
  , (0xE7, [99, 0x327])
  , (0xE8, [101, 0x300]), (0xE9, [101, 0x301]), (0xEA, [101, 0x302])
  , (0xEB, [101, 0x308])
  , (0xEC, [105, 0x300]), (0xED, [105, 0x301]), (0xEE, [105, 0x302])
  , (0xEF, [105, 0x308])
  , (0xF1, [110, 0x303])
  , (0xF2, [111, 0x300]), (0xF3, [111, 0x301]), (0xF4, [111, 0x302])
  , (0xF5, [111, 0x303]), (0xF6, [111, 0x308])
  , (0xF9, [117, 0x300]), (0xFA, [117, 0x301]), (0xFB, [117, 0x302])
  , (0xFC, [117, 0x308])
  , (0xFD, [121, 0x301]), (0xFF, [121, 0x308]) ]

/-- Canonical (NFD) decomposition of one scalar value. -/
def nfdD (c : Nat) : List Nat :=
  match alFindC c nfdTable with
  | some l => l
  | none => [c]

/-- Combining-mark test from `normalizer.rs` (`is_combining_mark`). -/
def is_combining_mark (c : Nat) : Bool :=
  (0x300 ≤ c && c ≤ 0x36F) || (0x1AB0 ≤ c && c ≤ 0x1AFF) ||
  (0x1DC0 ≤ c && c ≤ 0x1DFF) || (0x20D0 ≤ c && c ≤ 0x20FF) ||
  (0xFE20 ≤ c && c ≤ 0xFE2F)

/-- Ligature / typographic-punctuation replacement table from
`normalize_unicode_basic`. -/
def replTable : List (Nat × List Nat) :=
  [ (0xE6, [97, 101])        -- ae
  , (0x153, [111, 101])      -- oe
  , (0xF8, [111])            -- o
  , (0xDF, [115, 115])       -- ss
  , (0xF0, [100])            -- d
  , (0xFE, [116, 104])       -- th
  , (0x2018, []), (0x2019, []), (0x201C, []), (0x201D, [])
  , (0x2013, [45]), (0x2014, [45])
  , (0x2026, [46, 46, 46]) ]

/-- Replacement of one scalar value, if any. -/
def replacementOf (c : Nat) : Option (List Nat) := alFindC c replTable

/-- Unicode `Cc` (control) category, exactly U+0000..U+001F and U+007F..U+009F. -/
def is_control (c : Nat) : Bool := c < 0x20 || (0x7F ≤ c && c ≤ 0x9F)

/-- Rust `char::is_whitespace` (the Unicode White_Space set). -/
def isWs (c : Nat) : Bool :=
  (9 ≤ c && c ≤ 13) || c == 32 || c == 0x85 || c == 0xA0 || c == 0x1680 ||
  (0x2000 ≤ c && c ≤ 0x200A) || c == 0x2028 || c == 0x2029 ||
  c == 0x202F || c == 0x205F || c == 0x3000

/-- Rust `char::is_alphanumeric`, restricted to ASCII, Latin-1 letters, and
a few further letter blocks; conservative identity elsewhere. -/
def is_alphanumeric (c : Nat) : Bool :=
  (48 ≤ c && c ≤ 57) || (65 ≤ c && c ≤ 90) || (97 ≤ c && c ≤ 122) ||
  c == 0xAA || c == 0xB5 || c == 0xBA ||
  (0xC0 ≤ c && c ≤ 0xD6) || (0xD8 ≤ c && c ≤ 0xF6) ||
  (0xF8 ≤ c && c ≤ 0x2AF) ||
  (0x391 ≤ c && c ≤ 0x3A9) || (0x3B1 ≤ c && c ≤ 0x3C9) ||
  (0x400 ≤ c && c ≤ 0x4FF) || (0x4E00 ≤ c && c ≤ 0x9FFF)

/-- Lowercase, NFD-decompose and drop combining marks, apply the replacement
table, and strip control characters (`normalize_unicode_basic`).  The
sequential `String::replace` calls of the source equal one simultaneous
pass because no replacement value contains a replaced character. -/
def normalize_unicode_basic (t : Str) : Str :=
  let decomposed := (t.flatMap nfdD).filter (fun c => !is_combining_mark c)
  let replaced := decomposed.flatMap (fun c => (replacementOf c).getD [c])
  replaced.filter (fun c => !is_control c)

/-- Replace every character that is neither alphanumeric nor whitespace by a
space (`remove_punctuation`). -/
def remove_punctuation (t : Str) : Str :=
  t.map (fun c => if is_alphanumeric c || isWs c then c else 32)

/-- Accumulator-based whitespace tokenizer (Rust `str::split_whitespace`). -/
def splitWsAux : Str → Str → List Str
  | [], acc => if acc.isEmpty then [] else [acc.reverse]
  | c :: cs, acc =>
    if isWs c then
      if acc.isEmpty then splitWsAux cs [] else acc.reverse :: splitWsAux cs []
    else splitWsAux cs (c :: acc)

/-- Whitespace tokenization, dropping empty tokens. -/
def splitWs (t : Str) : List Str := splitWsAux t []

/-- Join tokens with a single U+0020 (Rust `[&str]::join(" ")`). -/
def joinSpace : List Str → Str
  | [] => []
  | [w] => w
  | w :: ws => w ++ 32 :: joinSpace ws

/-- Collapse whitespace runs to single spaces and trim (`collapse_whitespace`). -/
def collapse_whitespace (t : Str) : Str := joinSpace (splitWs t)

/-- Legal-suffix expansion table (`LEGAL_SUFFIX_EXPANSIONS`). -/
def legalSuffixExpansions : List (Str × Str) :=
  [ (ofString "inc", ofString "incorporated")
  , (ofString "inc.", ofString "incorporated")
  , (ofString "incorp", ofString "incorporated")
  , (ofString "corp", ofString "corporation")
  , (ofString "corp.", ofString "corporation")
  , (ofString "llc", ofString "limited liability company")
  , (ofString "l.l.c.", ofString "limited liability company")
  , (ofString "l.l.c", ofString "limited liability company")
  , (ofString "llp", ofString "limited liability partnership")
  , (ofString "l.l.p.", ofString "limited liability partnership")
  , (ofString "lp", ofString "limited partnership")
  , (ofString "l.p.", ofString "limited partnership")
  , (ofString "ltd", ofString "limited")
  , (ofString "ltd.", ofString "limited")
  , (ofString "ltda", ofString "limitada")
  , (ofString "ltee", ofString "limitee")
  , (ofString "pc", ofString "professional corporation")
  , (ofString "p.c.", ofString "professional corporation")
  , (ofString "pllc", ofString "professional limited liability company")
  , (ofString "p.l.l.c.", ofString "professional limited liability company")
  , (ofString "pa", ofString "professional association")
  , (ofString "p.a.", ofString "professional association")
  , (ofString "co", ofString "company")
  , (ofString "co.", ofString "company")
  , (ofString "cos", ofString "companies")
  , (ofString "gp", ofString "general partnership")
  , (ofString "g.p.", ofString "general partnership")
  , (ofString "plc", ofString "public limited company")
  , (ofString "p.l.c.", ofString "public limited company")
  , (ofString "sa", ofString "sociedad anonima")
  , (ofString "s.a.", ofString "sociedad anonima")
  , (ofString "ag", ofString "aktiengesellschaft")
  , (ofString "gmbh", ofString "gesellschaft mit beschrankter haftung")
  , (ofString "bv", ofString "besloten vennootschap")
  , (ofString "b.v.", ofString "besloten vennootschap")
  , (ofString "nv", ofString "naamloze vennootschap")
  , (ofString "n.v.", ofString "naamloze vennootschap")
  , (ofString "pty", ofString "proprietary")
  , (ofString "pty.", ofString "proprietary") ]

/-- Common-abbreviation expansion table (`COMMON_ABBREVIATIONS`). -/
def commonAbbreviations : List (Str × Str) :=
  [ (ofString "assn", ofString "association")
  , (ofString "assoc", ofString "association")
  , (ofString "dept", ofString "department")
  , (ofString "mfg", ofString "manufacturing")
  , (ofString "mfr", ofString "manufacturer")
  , (ofString "bros", ofString "brothers")
  , (ofString "sys", ofString "systems")
  , (ofString "tech", ofString "technology")
  , (ofString "ind", ofString "industries")
  , (ofString "inds", ofString "industries")
  , (ofString "ent", ofString "enterprises")
  , (ofString "hldgs", ofString "holdings")
  , (ofString "props", ofString "properties")
  , (ofString "invs", ofString "investments")
  , (ofString "inv", ofString "investment")
  , (ofString "fin", ofString "financial")
  , (ofString "ins", ofString "insurance")
  , (ofString "med", ofString "medical")
  , (ofString "hlth", ofString "health")
  , (ofString "pharm", ofString "pharmaceutical")
  , (ofString "bio", ofString "biological")
  , (ofString "chem", ofString "chemical")
  , (ofString "elec", ofString "electric")
  , (ofString "util", ofString "utilities")
  , (ofString "jr", ofString "junior")
  , (ofString "sr", ofString "senior") ]

/-- Stop-word set (`STOP_WORDS`). -/
def stopWords : List Str :=
  [ ofString "the", ofString "of", ofString "a", ofString "an"
  , ofString "and", ofString "for", ofString "in", ofString "on"
  , ofString "at", ofString "to", ofString "by" ]

/-- Membership in the stop-word set. -/
def isStopTok (w : Str) : Bool := stopWords.any (fun x => x = w)

/-- Expand a single token against the two abbreviation tables
(`expand_token`): legal suffixes first, then common abbreviations,
otherwise the lowercased token itself. -/
def expand_token (t : Str) : Str :=
  let lower := t.map rustToLower
  match alFindS lower legalSuffixExpansions with
  | some e => e
  | none =>
    match alFindS lower commonAbbreviations with
    | some e => e
    | none => lower

/-- Expand every token of the text (`expand_abbreviations`). -/
def expand_abbreviations (t : Str) : Str :=
  joinSpace ((splitWs t).map expand_token)

/-- Drop stop-word tokens, optionally keeping a leading stop word
(`remove_stop_words`). -/
def remove_stop_words (t : Str) (preserveInitialStop : Bool) : Str :=
  match splitWs t with
  | [] => []
  | t0 :: rest =>
    let head := if isStopTok t0 then (if preserveInitialStop then [t0] else []) else [t0]
    joinSpace (head ++ rest.filter (fun w => !isStopTok w))

/-- Legal-name normalization pipeline (`normalize_legal_name`). -/
def normalize_legal_name (name : Str) (removeStopWordsFlag preserveInitialStop : Bool) : Str :=
  if name = [] then []
  else
    let t1 := name.map rustToLower
    let t2 := normalize_unicode_basic t1
    let t3 := remove_punctuation t2
    let t4 := collapse_whitespace t3
    let t5 := expand_abbreviations t4
    let t6 := if removeStopWordsFlag then remove_stop_words t5 preserveInitialStop else t5
    collapse_whitespace t6

-- =========================================================================
-- Address normalization
-- =========================================================================

/-- US postal abbreviation table (`US_ADDRESS_EXPANSIONS`). -/
def usAddressExpansions : List (Str × Str) :=
  [ (ofString "st", ofString "street"), (ofString "st.", ofString "street")
  , (ofString "ave", ofString "avenue"), (ofString "ave.", ofString "avenue")
  , (ofString "blvd", ofString "boulevard"), (ofString "blvd.", ofString "boulevard")
  , (ofString "dr", ofString "drive"), (ofString "dr.", ofString "drive")
  , (ofString "rd", ofString "road"), (ofString "rd.", ofString "road")
  , (ofString "ln", ofString "lane"), (ofString "ln.", ofString "lane")
  , (ofString "ct", ofString "court"), (ofString "ct.", ofString "court")
  , (ofString "cir", ofString "circle"), (ofString "cir.", ofString "circle")
  , (ofString "pl", ofString "place"), (ofString "pl.", ofString "place")
  , (ofString "sq", ofString "square"), (ofString "sq.", ofString "square")
  , (ofString "pkwy", ofString "parkway"), (ofString "hwy", ofString "highway")
  , (ofString "trl", ofString "trail"), (ofString "way", ofString "way")
  , (ofString "ter", ofString "terrace"), (ofString "ter.", ofString "terrace")
  , (ofString "n", ofString "north"), (ofString "n.", ofString "north")
  , (ofString "s", ofString "south"), (ofString "s.", ofString "south")
  , (ofString "e", ofString "east"), (ofString "e.", ofString "east")
  , (ofString "w", ofString "west"), (ofString "w.", ofString "west")
  , (ofString "ne", ofString "northeast"), (ofString "nw", ofString "northwest")
  , (ofString "se", ofString "southeast"), (ofString "sw", ofString "southwest") ]

/-- Regex `\w` (word character): alphanumeric or underscore. -/
def isWordChar (c : Nat) : Bool := is_alphanumeric c || c == 95

/-- Regex `\d` (ASCII decimal digit). -/
def isDigitChar (c : Nat) : Bool := 48 ≤ c && c ≤ 57

/-- Match a literal keyword as a text head; returns the rest. -/
def matchLit : Str → Str → Option Str
  | [], r => some r
  | _ :: _, [] => none
  | c :: cs, d :: r => if c = d then matchLit cs r else none

/-- Tail matcher for the regex fragment `\s*#?\s*\w+` (greedy). -/
def wsHashWordTail (s : Str) : Option Str :=
  let s1 := s.dropWhile isWs
  let s2 := match s1 with
    | 35 :: r => r.dropWhile isWs
    | _ => s1
  match s2 with
  | c :: _ => if isWordChar c then some (s2.dropWhile isWordChar) else none
  | [] => none

/-- Tail matcher for the regex fragment `\s*\w+` (greedy). -/
def wsWordTail (s : Str) : Option Str :=
  let s1 := s.dropWhile isWs
  match s1 with
  | c :: _ => if isWordChar c then some (s1.dropWhile isWordChar) else none
  | [] => none

/-- Tail matcher for the regex fragment `\s*\d+` (greedy). -/
def wsDigitsTail (s : Str) : Option Str :=
  let s1 := s.dropWhile isWs
  match s1 with
  | c :: _ => if isDigitChar c then some (s1.dropWhile isDigitChar) else none
  | [] => none

/-- Optional literal dot (`\.?`), greedy with backtracking into `tail`. -/
def dotThen (tail : Str → Option Str) (s : Str) : Option Str :=
  match s with
  | 46 :: r =>
    (match tail r with
     | some r2 => some r2
     | none => tail s)
  | _ => tail s

/-- Matcher for the regex branch `\b#\s*\d+\w*`; the leading boundary is
checked by the caller. -/
def hashUnitBranch (s : Str) : Option Str :=
  match s with
  | 35 :: r =>
    let r1 := r.dropWhile isWs
    (match r1 with
     | c :: _ =>
       if isDigitChar c then some ((r1.dropWhile isDigitChar).dropWhile isWordChar)
       else none
     | [] => none)
  | _ => none

/-- Try the eleven alternatives of `SECONDARY_UNIT_REGEX` at the current
position, in pattern order, honouring the leading `\b` (the keyword
branches need a non-word predecessor; the `#` branch needs a word
predecessor because `#` itself is not a word character). -/
def matchSecondaryUnit (prevWord : Bool) (s : Str) : Option Str :=
  if prevWord then hashUnitBranch s
  else
    ((matchLit (ofString "apt") s).bind (dotThen wsHashWordTail)) <|>
    ((matchLit (ofString "suite") s).bind wsHashWordTail) <|>
    ((matchLit (ofString "ste") s).bind (dotThen wsHashWordTail)) <|>
    ((matchLit (ofString "unit") s).bind wsHashWordTail) <|>
    ((matchLit (ofString "floor") s).bind wsDigitsTail) <|>
    ((matchLit (ofString "fl") s).bind (dotThen wsDigitsTail)) <|>
    ((matchLit (ofString "room") s).bind wsDigitsTail) <|>
    ((matchLit (ofString "rm") s).bind (dotThen wsDigitsTail)) <|>
    ((matchLit (ofString "bldg") s).bind (dotThen wsWordTail)) <|>
    ((matchLit (ofString "building") s).bind wsWordTail)

/-- Left-to-right scan of `Regex::replace_all(&text, " ")` for the
secondary-unit regex.  Every match consumes at least one character, so the
length fuel is never exhausted; each match is replaced by one space, and
scanning resumes after the matched text (whose last character is always a
word character). -/
def removeSecondaryUnitsAux : Nat → Bool → Str → Str
  | 0, _, s => s
  | fuel + 1, prevWord, s =>
    match s with
    | [] => []
    | c :: cs =>
      match matchSecondaryUnit prevWord s with
      | some rest => 32 :: removeSecondaryUnitsAux fuel true rest
      | none => c :: removeSecondaryUnitsAux fuel (isWordChar c) cs

/-- Remove secondary-unit designators (`SECONDARY_UNIT_REGEX.replace_all`). -/
def removeSecondaryUnits (t : Str) : Str := removeSecondaryUnitsAux t.length false t

/-- Expand US postal abbreviations token-wise (`expand_address_abbreviations`). -/
def expand_address_abbreviations (t : Str) : Str :=
  joinSpace ((splitWs t).map (fun tok =>
    match alFindS tok usAddressExpansions with
    | some e => e
    | none => tok))

/-- Trim leading and trailing whitespace (Rust `str::trim`). -/
def trimWs (t : Str) : Str := (((t.dropWhile isWs).reverse).dropWhile isWs).reverse

/-- Address normalization pipeline (`normalize_address`). -/
def normalize_address (address : Str) (removeSecondary : Bool) : Str :=
  if address = [] then []
  else
    let t1 := address.map rustToLower
    let t2 := normalize_unicode_basic t1
    let t3 := if removeSecondary then removeSecondaryUnits t2 else t2
    let t4 := remove_punctuation t3
    let t5 := collapse_whitespace t4
    let t6 := expand_address_abbreviations t5
    trimWs t6

-- =========================================================================
-- Registration-date normalization
-- =========================================================================

/-- Split a string on a separator character (keeping empty fields). -/
def splitOnChar (sep : Nat) : Str → List Str
  | [] => [[]]
  | c :: cs =>
    if c = sep then [] :: splitOnChar sep cs
    else
      match splitOnChar sep cs with
      | [] => [[c]]
      | w :: ws => (c :: w) :: ws

/-- Parse a nonempty all-digit string as a number. -/
def parseDigits (s : Str) : Option Nat :=
  if s = [] ∨ ¬ s.all isDigitChar then none
  else some (s.foldl (fun acc c => acc * 10 + (c - 48)) 0)

/-- Gregorian leap-year test. -/
def isLeapYear (y : Nat) : Bool := y % 4 == 0 && (y % 100 != 0 || y % 400 == 0)

/-- Days in a month of the proleptic Gregorian calendar. -/
def daysInMonth (y m : Nat) : Nat :=
  if m = 2 then (if isLeapYear y then 29 else 28)
  else if m = 4 ∨ m = 6 ∨ m = 9 ∨ m = 11 then 30
  else 31

/-- Validity of a year-month-day triple (chrono `NaiveDate` range checks). -/
def validYmd (y m d : Nat) : Bool :=
  1 ≤ m && m ≤ 12 && 1 ≤ d && d ≤ daysInMonth y m && y ≤ 9999

/-- Decimal digit characters of a positive number, most significant first;
the first argument is structural fuel (any bound on the digit count). -/
def natDigitsAux : Nat → Nat → Str
  | 0, _ => []
  | fuel + 1, n => if n = 0 then [] else natDigitsAux fuel (n / 10) ++ [48 + n % 10]

/-- Decimal rendering of a natural number, no separators. -/
def natDigits (n : Nat) : Str := if n = 0 then [48] else natDigitsAux n n

/-- Left-pad a decimal rendering to a given width with zeros. -/
def padDigits (width n : Nat) : Str :=
  let ds := natDigits n
  List.replicate (width - ds.length) 48 ++ ds

/-- Render a date as `%Y-%m-%d` (chrono `format`, zero-padded fields). -/
def fmtYmd (y m d : Nat) : Str :=
  padDigits 4 y ++ [45] ++ padDigits 2 m ++ [45] ++ padDigits 2 d

/-- Parse three numeric fields separated by `sep` and validate them as a
date given the field order; models one chrono format pattern. -/
def parseDatePattern (sep : Nat) (order : Nat) (s : Str) : Option (Nat × Nat × Nat) :=
  match splitOnChar sep s with
  | [f1, f2, f3] =>
    (match parseDigits f1, parseDigits f2, parseDigits f3 with
     | some a, some b, some c =>
       let ymd := if order = 0 then (a, b, c) else if order = 1 then (c, a, b) else (c, b, a)
       if validYmd ymd.1 ymd.2.1 ymd.2.2 then some ymd else none
     | _, _, _ => none)
  | _ => none

/-- Parse a signed decimal integer (Rust `str::parse::<i32>`). -/
def parseI32 (s : Str) : Option Int :=
  match s with
  | 43 :: rest => (parseDigits rest).bind (fun n => if n < 2147483648 then some (Int.ofNat n) else none)
  | 45 :: rest => (parseDigits rest).bind (fun n => if n ≤ 2147483648 then some (-(Int.ofNat n)) else none)
  | _ => (parseDigits s).bind (fun n => if n < 2147483648 then some (Int.ofNat n) else none)

/-- Registration-date normalization (`normalize_registration_date`): the
four chrono patterns `%Y-%m-%d`, `%m/%d/%Y`, `%m-%d-%Y`, `%d/%m/%Y` in
order, then the year-only fallback, emitting `%Y-%m-%d`. -/
def normalize_registration_date (dateStr : Str) : Option Str :=
  if dateStr = [] then none
  else
    let d := trimWs dateStr
    match parseDatePattern 45 0 d with
    | some (y, m, dd) => some (fmtYmd y m dd)
    | none =>
      match parseDatePattern 47 1 d with
      | some (y, m, dd) => some (fmtYmd y m dd)
      | none =>
        match parseDatePattern 45 1 d with
        | some (y, m, dd) => some (fmtYmd y m dd)
        | none =>
          match parseDatePattern 47 2 d with
          | some (y, m, dd) => some (fmtYmd y m dd)
          | none =>
            match parseI32 d with
            | some n =>
              if 1000 ≤ n ∧ n ≤ 9999 then some (d ++ ofString "-01-01") else none
            | none => none

-- =========================================================================
-- Canonical input (SNFEI pre-image)
-- =========================================================================

/-- Normalized input quadruple for SNFEI hashing (`CanonicalInput`). -/
structure CanonicalInput where
  legal_name_normalized : Str
  address_normalized : Option Str
  country_code : Str
  registration_date : Option Str
deriving DecidableEq

/-- Pipe-delimited fixed-position hash pre-image (`to_hash_string`): empty
fields are kept as empty strings. -/
def CanonicalInput.to_hash_string (c : CanonicalInput) : Str :=
  c.legal_name_normalized ++ 124 :: (c.address_normalized.getD []) ++
    124 :: c.country_code ++ 124 :: (c.registration_date.getD [])

/-- Join with `|` (Rust `Vec::join("|")`). -/
def joinPipe : List Str → Str
  | [] => []
  | [w] => w
  | w :: ws => w ++ 124 :: joinPipe ws

/-- Alternative hash string that omits empty fields (`to_hash_string_v2`). -/
def CanonicalInput.to_hash_string_v2 (c : CanonicalInput) : Str :=
  let parts := [c.legal_name_normalized]
  let parts := parts ++ (match c.address_normalized with | some a => [a] | none => [])
  let parts := parts ++ [c.country_code]
  let parts := parts ++ (match c.registration_date with | some d => [d] | none => [])
  joinPipe parts

/-- Assemble the canonical input from raw fields (`build_canonical_input`). -/
def build_canonical_input (legalName countryCode : Str)
    (address registrationDate : Option Str) : CanonicalInput :=
  { legal_name_normalized := normalize_legal_name legalName true false
  , address_normalized := address.bind (fun a =>
      let normalized := normalize_address a true
      if normalized = [] then none else some normalized)
  , country_code := countryCode.map rustToUpper
  , registration_date := registrationDate.bind normalize_registration_date }

-- =========================================================================
-- SHA-256 (the `sha2` crate's digest, over the UTF-8 bytes of the pre-image)
-- =========================================================================

/-- UTF-8 encoding of one Unicode scalar value. -/
def utf8Char (c : Nat) : List Nat :=
  if c < 0x80 then [c]
  else if c < 0x800 then [0xC0 + c / 64, 0x80 + c % 64]
  else if c < 0x10000 then [0xE0 + c / 4096, 0x80 + c / 64 % 64, 0x80 + c % 64]
  else [0xF0 + c / 262144, 0x80 + c / 4096 % 64, 0x80 + c / 64 % 64, 0x80 + c % 64]

/-- UTF-8 encoding of a string (Rust `str::as_bytes`). -/
def utf8Encode (s : Str) : List Nat := s.flatMap utf8Char

/-- Rust `str::len`: the number of UTF-8 bytes. -/
def utf8Len (s : Str) : Nat := (utf8Encode s).length

/-- Truncate to a 32-bit word. -/
def w32 (n : Nat) : Nat := n % 4294967296

/-- Bitwise right rotation of a 32-bit word. -/
def rotr32 (n x : Nat) : Nat := w32 ((x >>> n) ||| (x <<< (32 - n)))

/-- SHA-256 round constants (decimal). -/
def sha256K : List Nat :=
  [ 1116352408, 1899447441, 3049323471, 3921009573, 961987163, 1508970993
  , 2453635748, 2870763221, 3624381080, 310598401, 607225278, 1426881987
  , 1925078388, 2162078206, 2614888103, 3248222580, 3835390401, 4022224774
  , 264347078, 604807628, 770255983, 1249150122, 1555081692, 1996064986
  , 2554220882, 2821834349, 2952996808, 3210313671, 3336571891, 3584528711
  , 113926993, 338241895, 666307205, 773529912, 1294757372, 1396182291
  , 1695183700, 1986661051, 2177026350, 2456956037, 2730485921, 2820302411
  , 3259730800, 3345764771, 3516065817, 3600352804, 4094571909, 275423344
  , 430227734, 506948616, 659060556, 883997877, 958139571, 1322822218
  , 1537002063, 1747873779, 1955562222, 2024104815, 2227730452, 2361852424
  , 2428436474, 2756734187, 3204031479, 3329325298 ]

/-- SHA-256 initial hash state (decimal). -/
def sha256H0 : List Nat :=
  [ 1779033703, 3144134277, 1013904242, 2773480762
  , 1359893119, 2600822924, 528734635, 1541459225 ]

/-- SHA-256 message padding: append 0x80, zeros to 56 mod 64, then the
bit length as 8 big-endian bytes. -/
def sha256Pad (msg : List Nat) : List Nat :=
  let L := msg.length
  let k := (64 + 56 - (L + 1) % 64) % 64
  let bitLen := 8 * L
  msg ++ 0x80 :: List.replicate k 0 ++
    [ bitLen / 72057594037927936 % 256, bitLen / 281474976710656 % 256
    , bitLen / 1099511627776 % 256, bitLen / 4294967296 % 256
    , bitLen / 16777216 % 256, bitLen / 65536 % 256
    , bitLen / 256 % 256, bitLen % 256 ]

/-- Group bytes into 32-bit big-endian words. -/
def wordsOfBytes : List Nat → List Nat
  | b0 :: b1 :: b2 :: b3 :: rest =>
    (b0 * 16777216 + b1 * 65536 + b2 * 256 + b3) :: wordsOfBytes rest
  | _ => []

/-- Split a list into chunks of 16 words (one SHA-256 block each). -/
def chunk16 : List Nat → List (List Nat)
  | [] => []
  | a0 :: a1 :: a2 :: a3 :: a4 :: a5 :: a6 :: a7 ::
    a8 :: a9 :: a10 :: a11 :: a12 :: a13 :: a14 :: a15 :: rest =>
    [a0, a1, a2, a3, a4, a5, a6, a7, a8, a9, a10, a11, a12, a13, a14, a15] ::
      chunk16 rest
  | l => [l]

/-- Extend a 16-word block to the 64-word message schedule. -/
def sha256Schedule (count : Nat) (ws : List Nat) : List Nat :=
  match count with
  | 0 => ws
  | count + 1 =>
    let i := ws.length
    let w15 := ws.getD (i - 15) 0
    let w2 := ws.getD (i - 2) 0
    let s0 := (rotr32 7 w15) ^^^ (rotr32 18 w15) ^^^ (w15 >>> 3)
    let s1 := (rotr32 17 w2) ^^^ (rotr32 19 w2) ^^^ (w2 >>> 10)
    sha256Schedule count (ws ++ [w32 (ws.getD (i - 16) 0 + s0 + ws.getD (i - 7) 0 + s1)])

/-- One block's 64 compression rounds over the working state `[a..h]`. -/
def sha256Rounds : List Nat → List Nat → List Nat → List Nat
  | [], _, st => st
  | _, [], st => st
  | k :: ks, w :: ws, st =>
    let a := st.getD 0 0
    let b := st.getD 1 0
    let c := st.getD 2 0
    let d := st.getD 3 0
    let e := st.getD 4 0
    let f := st.getD 5 0
    let g := st.getD 6 0
    let h := st.getD 7 0
    let s1 := (rotr32 6 e) ^^^ (rotr32 11 e) ^^^ (rotr32 25 e)
    let ch := (e &&& f) ^^^ ((4294967295 - e) &&& g)
    let temp1 := w32 (h + s1 + ch + k + w)
    let s0 := (rotr32 2 a) ^^^ (rotr32 13 a) ^^^ (rotr32 22 a)
    let maj := (a &&& b) ^^^ (a &&& c) ^^^ (b &&& c)
    let temp2 := w32 (s0 + maj)
    sha256Rounds ks ws
      [w32 (temp1 + temp2), a, b, c, w32 (d + temp1), e, f, g]

/-- Process one 16-word block into the running hash state. -/
def sha256Block (h : List Nat) (block : List Nat) : List Nat :=
  let ws := sha256Schedule 48 block
  let st := sha256Rounds sha256K ws h
  (List.zip h st).map (fun p => w32 (p.1 + p.2))

/-- SHA-256 digest of a byte sequence, as 32 bytes. -/
def sha256 (msg : List Nat) : List Nat :=
  let blocks := chunk16 (wordsOfBytes (sha256Pad msg))
  let hFinal := blocks.foldl sha256Block sha256H0
  hFinal.flatMap (fun wv =>
    [wv / 16777216 % 256, wv / 65536 % 256, wv / 256 % 256, wv % 256])

/-- Lowercase hex digit character. -/
def hexDigit (n : Nat) : Nat := if n < 10 then 48 + n else 87 + n

/-- Lowercase hex rendering of a byte sequence (`format!` with `:x` on the
digest). -/
def bytesToHex (bs : List Nat) : Str :=
  bs.flatMap (fun b => [hexDigit (b / 16), hexDigit (b % 16)])

-- =========================================================================
-- SNFEI generator (`cep-snfei/src/generator.rs`)
-- =========================================================================

/-- Result of SNFEI generation with metadata (`SnfeiResult`); the
confidence score is the exact rational the `f64` arithmetic approximates. -/
structure SnfeiResult where
  snfei : Str
  canonical : CanonicalInput
  confidence_score : ℚ
  tier : Nat
  fields_used : List Str

/-- Compute the SNFEI from canonical input (`compute_snfei`): lowercase hex
SHA-256 of the UTF-8 bytes of `to_hash_string`. -/
def compute_snfei (c : CanonicalInput) : Str :=
  bytesToHex (sha256 (utf8Encode c.to_hash_string))

/-- Rust `f64::round`: round half away from zero. -/
def rustRound (q : ℚ) : ℚ :=
  if 0 ≤ q then (⌊q + 1 / 2⌋ : ℤ) else (⌈q - 1 / 2⌉ : ℤ)

/-- Presence of a non-empty normalized address (the `has_address` local of
`generate_snfei`). -/
def has_address (c : CanonicalInput) : Bool :=
  match c.address_normalized with
  | some s => !s.isEmpty
  | none => false

/-- Presence of a non-empty normalized registration date (the
`has_registration_date` local of `generate_snfei`). -/
def has_reg_date (c : CanonicalInput) : Bool :=
  match c.registration_date with
  | some s => !s.isEmpty
  | none => false

/-- Whitespace word count of the normalized name (the `word_count` local of
`generate_snfei`). -/
def name_word_count (c : CanonicalInput) : Nat :=
  (splitWs c.legal_name_normalized).length

/-- Generate an SNFEI from raw attributes (`generate_snfei`), including the
Tier-3 confidence computation. -/
def generate_snfei (legalName countryCode : Str)
    (address registrationDate : Option Str) : SnfeiResult :=
  let canonical := build_canonical_input legalName countryCode address registrationDate
  let snfei := compute_snfei canonical
  let hasAddress := has_address canonical
  let hasRegistrationDate := has_reg_date canonical
  let fieldsUsed := [ofString "legal_name", ofString "country_code"] ++
    (if hasAddress then [ofString "address"] else []) ++
    (if hasRegistrationDate then [ofString "registration_date"] else [])
  let confidence : ℚ := 1 / 2
  let confidence := if hasAddress then confidence + 1 / 5 else confidence
  let confidence := if hasRegistrationDate then confidence + 1 / 5 else confidence
  let wordCount := name_word_count canonical
  let confidence := if 3 < wordCount then confidence + 1 / 10 else confidence
  let confidence := min confidence (9 / 10)
  let confidence := if confidence < (0 : ℚ) then (0 : ℚ) else if (1 : ℚ) < confidence then (1 : ℚ) else confidence
  { snfei := snfei
  , canonical := canonical
  , confidence_score := rustRound (confidence * 100) / 100
  , tier := 3
  , fields_used := fieldsUsed }

/-- The Tier-1 trigger: an LEI value of exactly 20 bytes (`lei_val.len()`). -/
def leiTrigger (lei : Option Str) : Bool :=
  match lei with
  | some l => utf8Len l == 20
  | none => false

/-- The Tier-2 trigger: a SAM UEI value of exactly 12 bytes (`uei_val.len()`). -/
def ueiTrigger (samUei : Option Str) : Bool :=
  match samUei with
  | some u => utf8Len u == 12
  | none => false

/-- Generate an SNFEI with tier classification
(`generate_snfei_with_confidence`): Tier 1 for a 20-byte LEI, Tier 2 for a
12-byte SAM UEI, otherwise the Tier-3 path of `generate_snfei`. -/
def generate_snfei_with_confidence (legalName countryCode : Str)
    (address registrationDate lei samUei : Option Str) : SnfeiResult :=
  let canonical := build_canonical_input legalName countryCode address registrationDate
  let snfei := compute_snfei canonical
  if leiTrigger lei then
    { snfei := snfei, canonical := canonical, confidence_score := 1, tier := 1
    , fields_used := [ofString "lei", ofString "legal_name", ofString "country_code"] }
  else if ueiTrigger samUei then
    { snfei := snfei, canonical := canonical, confidence_score := 95 / 100, tier := 2
    , fields_used := [ofString "sam_uei", ofString "legal_name", ofString "country_code"] }
  else
    generate_snfei legalName countryCode address registrationDate

-- =========================================================================
-- Entity identifiers (`cep-entity/src/identifiers.rs`)
-- =========================================================================

/-- SAM.gov Unique Entity Identifier newtype (`SamUei`). -/
structure SamUei where
  val : Str
deriving DecidableEq

/-- Legal Entity Identifier newtype (`Lei`). -/
structure Lei where
  val : Str
deriving DecidableEq

/-- Canadian Business Number newtype (`CanadianBn`). -/
structure CanadianBn where
  val : Str
deriving DecidableEq

/-- Validated SNFEI newtype (`Snfei` in `cep-snfei/src/generator.rs`). -/
structure Snfei where
  value : Str
deriving DecidableEq

/-- Additional identifier scheme (`AdditionalScheme`). -/
structure AdditionalScheme where
  scheme_uri : Str
  value : Str
deriving DecidableEq

/-- Collection of all known identifiers for an entity (`EntityIdentifiers`). -/
structure EntityIdentifiers where
  sam_uei : Option SamUei := none
  lei : Option Lei := none
  snfei : Option Snfei := none
  canadian_bn : Option CanadianBn := none
  additional_schemes : Option (List AdditionalScheme) := none
deriving DecidableEq

/-- True if at least one identifier is present (`has_any`). -/
def EntityIdentifiers.has_any (ids : EntityIdentifiers) : Bool :=
  ids.sam_uei.isSome || ids.lei.isSome || ids.snfei.isSome ||
    ids.canadian_bn.isSome ||
    (match ids.additional_schemes with
     | some v => !v.isEmpty
     | none => false)

/-- Best identifier for use as the verifiable ID (`primary_identifier`):
priority LEI, SAM UEI, SNFEI, Canadian BN, first additional scheme. -/
def EntityIdentifiers.primary_identifier (ids : EntityIdentifiers) : Option Str :=
  match ids.lei with
  | some l => some (ofString "cep-entity:lei:" ++ l.val)
  | none =>
  match ids.sam_uei with
  | some u => some (ofString "cep-entity:sam-uei:" ++ u.val)
  | none =>
  match ids.snfei with
  | some s => some (ofString "cep-entity:snfei:" ++ s.value)
  | none =>
  match ids.canadian_bn with
  | some b => some (ofString "cep-entity:canadian-bn:" ++ b.val)
  | none =>
  match ids.additional_schemes with
  | some schemes =>
    (match schemes with
     | first :: _ => some (ofString "cep-entity:other:" ++ first.value)
     | [] => none)
  | none => none

-- =========================================================================
-- Entity record (`cep-entity/src/entity.rs`)
-- =========================================================================

/-- Modelled from the spec: the attestation envelope of `cep-core` (the
`Attestation` type is not among the provided sources); it carries attestor
identity, timestamp, proof type, proof value, and verification-method URI,
all opaque to record validation. -/
structure Attestation where
  attestor : Str
  timestamp : Str
  proof_type : Str
  proof_value : Str
  verification_method : Str
deriving DecidableEq

/-- Modelled from the spec: the canonical-hash primitive of `cep-core`
(`CanonicalHash` is not among the provided sources); it wraps the 64-char
lowercase hex digest. -/
structure CanonicalHash where
  hex : Str
deriving DecidableEq

/-- Modelled from the spec: the schema version constant `SCHEMA_VERSION` of
`cep-core` (not among the provided sources); the record doc demands
exactly "1.0.0". -/
def SCHEMA_VERSION : Str := ofString "1.0.0"

/-- Modelled from the spec: the entity status code enumeration
(`EntityStatusCode`, not among the provided sources). -/
inductive EntityStatusCode
  | active
  | completed
  | terminated
deriving DecidableEq

/-- Modelled from the spec: entity status block (code, effective date,
optional termination date, optional successor). -/
structure EntityStatus where
  status_code : EntityStatusCode
  status_effective_date : Str
  status_termination_date : Option Str := none
  successor_entity_id : Option Str := none
deriving DecidableEq

/-- A complete CEP Entity Record (`EntityRecord`); `u32` revision numbers
are modelled as `Nat`. -/
structure EntityRecord where
  schema_version : Str
  verifiable_id : Str
  identifiers : EntityIdentifiers
  legal_name : Str
  legal_name_normalized : Option Str
  entity_type_uri : Option Str
  jurisdiction_iso : Str
  status : EntityStatus
  naics_code : Option Str
  attestation : Attestation
  previous_record_hash : Option CanonicalHash
  revision_number : Nat
deriving DecidableEq

/-- Constructor with required fields (`EntityRecord::new`). -/
def EntityRecord.new (verifiableId : Str) (identifiers : EntityIdentifiers)
    (legalName jurisdictionIso : Str) (status : EntityStatus)
    (attestation : Attestation) : EntityRecord :=
  { schema_version := SCHEMA_VERSION
  , verifiable_id := verifiableId
  , identifiers := identifiers
  , legal_name := legalName
  , legal_name_normalized := none
  , entity_type_uri := none
  , jurisdiction_iso := jurisdictionIso
  , status := status
  , naics_code := none
  , attestation := attestation
  , previous_record_hash := none
  , revision_number := 1 }

/-- Set the previous record hash (`with_previous_hash`). -/
def EntityRecord.with_previous_hash (r : EntityRecord) (hash : CanonicalHash) : EntityRecord :=
  { r with previous_record_hash := some hash }

/-- Set the revision number (`with_revision`). -/
def EntityRecord.with_revision (r : EntityRecord) (revision : Nat) : EntityRecord :=
  { r with revision_number := revision }

/-- Record validation (`EntityRecord::validate`). -/
def EntityRecord.validate (r : EntityRecord) : Except Str Unit :=
  if r.schema_version ≠ SCHEMA_VERSION then
    .error (ofString "Unsupported schema version: " ++ r.schema_version)
  else if r.verifiable_id = [] then
    .error (ofString "verifiableId is required")
  else if r.identifiers.has_any = false then
    .error (ofString "At least one identifier is required")
  else if r.legal_name = [] then
    .error (ofString "legalName is required")
  else if r.jurisdiction_iso = [] then
    .error (ofString "jurisdictionIso is required")
  else if r.revision_number < 1 then
    .error (ofString "revisionNumber must be >= 1")
  else
    .ok ()

-- =========================================================================
-- Fixed-point rendering and the canonical serializer
-- =========================================================================

/-- Signed fixed-point rendering of a scaled integer `n` (the value times
`10 ^ fracDigits`): sign, integer digits, dot, zero-padded fraction. -/
def renderFixed (fracDigits : Nat) (n : ℤ) : Str :=
  (if n < 0 then [45] else []) ++
    natDigits (n.natAbs / 10 ^ fracDigits) ++
    46 :: padDigits fracDigits (n.natAbs % 10 ^ fracDigits)

/-- Floor of a rational as an integer (the denominator of a normalized
`Rat` is positive, so flooring division of the numerator is the floor). -/
def qfloor (q : ℚ) : ℤ := Int.fdiv q.num q.den

/-- Round to the nearest integer, ties to even (the rounding of Rust's
fixed-precision float `Display`). -/
def roundHalfEven (q : ℚ) : ℤ :=
  let f := qfloor q
  let r := q - f
  if r < 1 / 2 then f
  else if 1 / 2 < r then f + 1
  else if f % 2 = 0 then f else f + 1

/-- Four-decimal rendering of a share (Rust `format!` with precision 4). -/
def fmt4 (q : ℚ) : Str := renderFixed 4 (roundHalfEven (q * 10000))

/-- Round the fraction `a / b` (with `b` positive) to the nearest integer,
half away from zero, in integer arithmetic: for nonnegative `a` this is
the floor of `a / b + 1 / 2`, and the negative case mirrors it. -/
def roundHalfAway (a b : ℤ) : ℤ :=
  if 0 ≤ a then Int.fdiv (2 * a + b) (2 * b)
  else -(Int.fdiv (2 * (-a) + b) (2 * b))

/-- Modelled from the spec: `format_amount` of the cep-core `canonical`
module (not among the provided sources) renders a finite amount with
exactly two fractional digits, half-away-from-zero rounding, no thousands
separators, and no sign suppression for negatives.  The amount in cents is
`100 * q = (100 * q.num) / q.den` rounded half away from zero. -/
def format_amount (q : ℚ) : Str := renderFixed 2 (roundHalfAway (100 * q.num) q.den)

/-- Join fragments with commas. -/
def joinComma : List Str → Str
  | [] => []
  | [w] => w
  | w :: ws => w ++ 44 :: joinComma ws

/-- Wrap a value in double quotes. -/
def quoteStr (v : Str) : Str := 34 :: v ++ [34]

/-- Modelled from the spec: the `Canonicalize::to_canonical_string`
serializer of the cep-core `canonical` module (not among the provided
sources): the already-key-sorted field map is rendered on a single line as
brace-wrapped, comma-separated, double-quoted key/value pairs. -/
def to_canonical_string (fields : List (Str × Str)) : Str :=
  123 :: joinComma (fields.map (fun p => quoteStr p.1 ++ 58 :: quoteStr p.2)) ++ [125]

-- =========================================================================
-- Multilateral members (`cep-relationship/src/multilateral.rs`)
-- =========================================================================

/-- A member in a multilateral relationship (`Member`); the `f64`
participation share is modelled as an exact rational. -/
structure Member where
  entity_id : Str
  role_uri : Str
  participation_share : Option ℚ := none
deriving DecidableEq

/-- Plain constructor (`Member::new`). -/
def Member.new (entityId roleUri : Str) : Member :=
  { entity_id := entityId, role_uri := roleUri, participation_share := none }

/-- Attach a participation share (`Member::with_share`). -/
def Member.with_share (m : Member) (share : ℚ) : Member :=
  { m with participation_share := some share }

/-- Canonical field map of a member (`Canonicalize for Member`); the keys
`entityId`, `participationShare`, `roleUri` are listed in their sorted
(`BTreeMap`) order. -/
def Member.canonical_fields (m : Member) : List (Str × Str) :=
  (ofString "entityId", m.entity_id) ::
    (match m.participation_share with
     | some q => [(ofString "participationShare", fmt4 q)]
     | none => []) ++ [(ofString "roleUri", m.role_uri)]

/-- Canonical string of a member. -/
def Member.to_canonical_string (m : Member) : Str :=
  CEP.to_canonical_string m.canonical_fields

/-- Lexicographic string comparison (Rust `Ord for String`, which compares
UTF-8 bytes; scalar-value order and byte order agree). -/
def strLt : Str → Str → Bool
  | [], [] => false
  | [], _ :: _ => true
  | _ :: _, [] => false
  | a :: as, b :: bs => if a < b then true else if a = b then strLt as bs else false

/-- Sorted member list standing for the `BTreeSet<Member>` inside
`MultilateralMembers`; `Ord for Member` compares `entity_id` only. -/
abbrev MultilateralMembers := List Member

/-- Insert a member (`MultilateralMembers::add`, i.e. `BTreeSet::insert`,
keyed by `entity_id`): an already-present key keeps the original member. -/
def mmAdd (s : MultilateralMembers) (m : Member) : MultilateralMembers :=
  match s with
  | [] => [m]
  | x :: xs =>
    if strLt m.entity_id x.entity_id then m :: x :: xs
    else if m.entity_id = x.entity_id then x :: xs
    else x :: mmAdd xs m

/-- Build a member set by repeated `add` starting from `new()`. -/
def mmFromList (l : List Member) : MultilateralMembers := l.foldl mmAdd []

/-- Participation-share validation (`validate_shares`): either no member
carries a share, or all do and the total is within `1e-4` of `1.0`. -/
def validate_shares (s : MultilateralMembers) : Except Str Unit :=
  let shares := s.filterMap (fun m => m.participation_share)
  if shares.isEmpty then .ok ()
  else if shares.length ≠ s.length then
    .error (ofString "All members must have participation shares if any do")
  else
    let total := shares.sum
    if 1 / 10000 < |total - 1| then
      .error (ofString "Participation shares must sum to 1.0, got " ++ fmt4 total)
    else .ok ()

/-- Canonical field map of a member set (`Canonicalize for
MultilateralMembers`): the members, already sorted by `entity_id`, as a
bracketed comma-joined array under the single key `members`; empty when
there are no members. -/
def mmCanonicalFields (s : MultilateralMembers) : List (Str × Str) :=
  let membersJson := s.map Member.to_canonical_string
  if membersJson.isEmpty then []
  else [(ofString "members", 91 :: joinComma membersJson ++ [93])]

/-- Canonical string of a member set. -/
def mmToCanonicalString (s : MultilateralMembers) : Str :=
  to_canonical_string (mmCanonicalFields s)

-- =========================================================================
-- Localization config merging (`cep-snfei/src/localization.rs`)
-- =========================================================================

/-- A single localization transformation rule (`LocalizationRule`). -/
structure LocalizationRule where
  pattern : Str
  replacement : Str
  is_regex : Bool
  context : Option Str
deriving DecidableEq

/-- Association-list stand-in for `HashMap<String, String>`; lookups take
the first binding, and maps built by `insert` keep keys unique. -/
abbrev StrMap := List (Str × Str)

/-- HashMap insert: overwrite the first binding of the key, else append. -/
def hmInsert (m : StrMap) (k v : Str) : StrMap :=
  match m with
  | [] => [(k, v)]
  | p :: rest => if p.1 = k then (k, v) :: rest else p :: hmInsert rest k v

/-- HashMap `extend`: insert every binding of `override` into `m`. -/
def hmExtend (m override : StrMap) : StrMap :=
  override.foldl (fun acc p => hmInsert acc p.1 p.2) m

/-- HashSet insert: append if not already present. -/
def hsInsert (s : List Str) (x : Str) : List Str :=
  if s.any (fun y => y = x) then s else s ++ [x]

/-- HashSet union. -/
def hsUnion (a b : List Str) : List Str := b.foldl hsInsert a

/-- Configuration for a jurisdiction (`LocalizationConfig`). -/
structure LocalizationConfig where
  jurisdiction : Str
  parent : Option Str
  abbreviations : StrMap
  agency_names : StrMap
  entity_types : StrMap
  rules : List LocalizationRule
  stop_words : List Str
deriving DecidableEq

/-- Merge a child config over its parent (`LocalizationRegistry::merge_configs`):
child-wins union for the three maps, parent-first rule concatenation,
stop-word set union, child jurisdiction, parent pointer retained. -/
def merge_configs (child parent : LocalizationConfig) : LocalizationConfig :=
  { jurisdiction := child.jurisdiction
  , parent := some parent.jurisdiction
  , abbreviations := hmExtend parent.abbreviations child.abbreviations
  , agency_names := hmExtend parent.agency_names child.agency_names
  , entity_types := hmExtend parent.entity_types child.entity_types
  , rules := parent.rules ++ child.rules
  , stop_words := hsUnion parent.stop_words child.stop_words }

-- =========================================================================
-- Exchange value (`cep-exchange/src/value.rs`)
-- =========================================================================

/-- The value being exchanged (`ExchangeValue`); the `f64` amount is
modelled as an exact rational. -/
structure ExchangeValue where
  amount : ℚ
  currency_code : Str
  value_type_uri : Str
  in_kind_description : Option Str
deriving DecidableEq

/-- Default value-type URI (`default_value_type`). -/
def default_value_type : Str :=
  ofString "https://raw.githubusercontent.com/civic-interconnect/civic-interconnect/main/vocabularies/value-type.json#monetary"

/-- Monetary value constructor (`ExchangeValue::monetary`). -/
def ExchangeValue.monetary (amount : ℚ) (currencyCode : Str) : ExchangeValue :=
  { amount := amount
  , currency_code := currencyCode
  , value_type_uri := default_value_type
  , in_kind_description := none }

/-- USD monetary value constructor (`ExchangeValue::usd`). -/
def ExchangeValue.usd (amount : ℚ) : ExchangeValue :=
  ExchangeValue.monetary amount (ofString "USD")

/-- Canonical field map of an exchange value (`Canonicalize for
ExchangeValue`); keys in sorted (`BTreeMap`) order. -/
def ExchangeValue.canonical_fields (v : ExchangeValue) : List (Str × Str) :=
  (ofString "amount", format_amount v.amount) ::
    (ofString "currencyCode", v.currency_code) ::
    (match v.in_kind_description with
     | some d => [(ofString "inKindDescription", d)]
     | none => []) ++ [(ofString "valueTypeUri", v.value_type_uri)]

/-- Lookup of a field in a canonical field map. -/
def fieldLookup (fields : List (Str × Str)) (k : Str) : Option Str :=
  alFindS k fields

-- =========================================================================
-- Tokenizer infrastructure lemmas
-- =========================================================================

theorem map_id_of {α : Type} (f : α → α) :
    ∀ l : List α, (∀ c ∈ l, f c = c) → l.map f = l := by
  intro l h
  induction l with
  | nil => rfl
  | cons c cs ih =>
    simp only [List.map_cons]
    rw [h c (List.mem_cons_self c cs), ih (fun x hx => h x (List.mem_cons_of_mem c hx))]

theorem flatMap_id_of {α : Type} (f : α → List α) :
    ∀ l : List α, (∀ c ∈ l, f c = [c]) → l.flatMap f = l := by
  intro l h
  induction l with
  | nil => rfl
  | cons c cs ih =>
    simp only [List.flatMap_cons]
    rw [h c (List.mem_cons_self c cs), ih (fun x hx => h x (List.mem_cons_of_mem c hx))]
    rfl

theorem mem_joinSpace {c : Nat} :
    ∀ {ws : List Str}, c ∈ joinSpace ws → c = 32 ∨ ∃ w ∈ ws, c ∈ w := by
  intro ws
  induction ws with
  | nil => intro h; exact absurd h (List.not_mem_nil c)
  | cons w rest ih =>
    intro h
    cases rest with
    | nil =>
      exact Or.inr ⟨w, List.mem_cons_self w [], h⟩
    | cons v vs =>
      simp only [joinSpace, List.mem_append, List.mem_cons] at h
      rcases h with h | h | h
      · exact Or.inr ⟨w, List.mem_cons_self w _, h⟩
      · exact Or.inl h
      · rcases ih h with h32 | ⟨u, hu, hc⟩
        · exact Or.inl h32
        · exact Or.inr ⟨u, List.mem_cons_of_mem w hu, hc⟩

theorem joinSpace_ne_nil {ws : List Str} (hne : ws ≠ [])
    (h : ∀ w ∈ ws, w ≠ []) : joinSpace ws ≠ [] := by
  cases ws with
  | nil => exact absurd rfl hne
  | cons w rest =>
    cases rest with
    | nil => exact h w (List.mem_cons_self w [])
    | cons v vs =>
      simp only [joinSpace]
      intro hcontra
      have := List.append_eq_nil.mp hcontra
      exact List.cons_ne_nil 32 _ this.2

theorem splitWsAux_word : ∀ (w r acc : Str), (∀ c ∈ w, isWs c = false) →
    splitWsAux (w ++ r) acc = splitWsAux r (w.reverse ++ acc) := by
  intro w
  induction w with
  | nil => intro r acc _; rfl
  | cons c cs ih =>
    intro r acc h
    have hc : isWs c = false := h c (List.mem_cons_self c cs)
    show splitWsAux (c :: (cs ++ r)) acc = _
    rw [splitWsAux, hc]
    simp only [Bool.false_eq_true, if_false]
    rw [show (c :: cs).reverse ++ acc = cs.reverse ++ (c :: acc) by simp]
    exact ih r (c :: acc) (fun x hx => h x (List.mem_cons_of_mem c hx))

theorem splitWsAux_sep : ∀ (e r acc : Str),
    splitWsAux (e ++ 32 :: r) acc = splitWsAux e acc ++ splitWs r := by
  intro e
  induction e with
  | nil =>
    intro r acc
    show splitWsAux (32 :: r) acc = splitWsAux [] acc ++ splitWs r
    rw [splitWsAux, splitWsAux]
    have h32 : isWs 32 = true := by decide
    rw [h32]
    simp only [if_true]
    cases hacc : acc.isEmpty with
    | true => simp [splitWs]
    | false => simp [splitWs]
  | cons c cs ih =>
    intro r acc
    show splitWsAux (c :: (cs ++ 32 :: r)) acc = splitWsAux (c :: cs) acc ++ splitWs r
    rw [splitWsAux, splitWsAux]
    cases hc : isWs c with
    | true =>
      simp only [if_true]
      cases hacc : acc.isEmpty with
      | true => simp only [if_true]; exact ih r []
      | false =>
        simp only [Bool.false_eq_true, if_false]
        rw [ih r []]
        rfl
    | false =>
      simp only [Bool.false_eq_true, if_false]
      exact ih r (c :: acc)

theorem splitWs_single {w : Str} (hne : w ≠ []) (h : ∀ c ∈ w, isWs c = false) :
    splitWs w = [w] := by
  have hx := splitWsAux_word w [] [] h
  simp only [List.append_nil] at hx
  unfold splitWs
  rw [hx]
  show (if (w.reverse).isEmpty then _ else [(w.reverse).reverse]) = [w]
  have hemp : (w.reverse).isEmpty = false := by
    cases w with
    | nil => exact absurd rfl hne
    | cons c cs => simp
  rw [hemp]
  simp

theorem splitWs_joinSpace {ws : List Str}
    (h : ∀ w ∈ ws, w ≠ [] ∧ ∀ c ∈ w, isWs c = false) :
    splitWs (joinSpace ws) = ws := by
  induction ws with
  | nil => rfl
  | cons w rest ih =>
    cases rest with
    | nil =>
      show splitWs w = [w]
      exact splitWs_single (h w (List.mem_cons_self w [])).1
        (h w (List.mem_cons_self w [])).2
    | cons v vs =>
      show splitWs (w ++ 32 :: joinSpace (v :: vs)) = w :: v :: vs
      have hw := h w (List.mem_cons_self w _)
      have hsep := splitWsAux_sep w (joinSpace (v :: vs)) []
      have hsingle : splitWsAux w [] = [w] := splitWs_single hw.1 hw.2
      show splitWsAux (w ++ 32 :: joinSpace (v :: vs)) [] = w :: v :: vs
      rw [hsep, hsingle, ih (fun x hx => h x (List.mem_cons_of_mem w hx))]
      rfl

theorem splitWs_joinSpace_flat : ∀ l : List Str,
    splitWs (joinSpace l) = l.flatMap splitWs := by
  intro l
  induction l with
  | nil => rfl
  | cons w rest ih =>
    cases rest with
    | nil => simp [joinSpace]
    | cons v vs =>
      show splitWs (w ++ 32 :: joinSpace (v :: vs)) = _
      show splitWsAux (w ++ 32 :: joinSpace (v :: vs)) [] = _
      rw [splitWsAux_sep w (joinSpace (v :: vs)) [], ih]
      rfl

theorem splitWsAux_props (P : Nat → Prop) :
    ∀ (t acc : Str), (∀ c ∈ t, isWs c = false → P c) →
      (∀ c ∈ acc, P c ∧ isWs c = false) →
      ∀ w ∈ splitWsAux t acc, w ≠ [] ∧ ∀ c ∈ w, P c ∧ isWs c = false := by
  intro t
  induction t with
  | nil =>
    intro acc _ hacc w hw
    rw [splitWsAux] at hw
    cases h : acc.isEmpty with
    | true => rw [h] at hw; simp at hw
    | false =>
      rw [h] at hw
      simp only [Bool.false_eq_true, if_false, List.mem_cons, List.not_mem_nil,
        or_false] at hw
      subst hw
      constructor
      · intro hcontra
        rw [List.reverse_eq_nil_iff] at hcontra
        subst hcontra
        simp at h
      · intro c hc
        exact hacc c (List.mem_reverse.mp hc)
  | cons c cs ih =>
    intro acc ht hacc w hw
    rw [splitWsAux] at hw
    cases hc : isWs c with
    | true =>
      rw [hc] at hw
      simp only [if_true] at hw
      cases h : acc.isEmpty with
      | true =>
        rw [h] at hw
        simp only [if_true] at hw
        exact ih [] (fun x hx hxw => ht x (List.mem_cons_of_mem c hx) hxw)
          (by intro x hx; exact absurd hx (List.not_mem_nil x)) w hw
      | false =>
        rw [h] at hw
        simp only [Bool.false_eq_true, if_false, List.mem_cons] at hw
        rcases hw with hw | hw
        · subst hw
          constructor
          · intro hcontra
            rw [List.reverse_eq_nil_iff] at hcontra
            subst hcontra
            simp at h
          · intro x hx
            exact hacc x (List.mem_reverse.mp hx)
        · exact ih [] (fun x hx hxw => ht x (List.mem_cons_of_mem c hx) hxw)
            (by intro x hx; exact absurd hx (List.not_mem_nil x)) w hw
    | false =>
      rw [hc] at hw
      simp only [Bool.false_eq_true, if_false] at hw
      have hcP : P c := ht c (List.mem_cons_self c cs) hc
      refine ih (c :: acc) (fun x hx hxw => ht x (List.mem_cons_of_mem c hx) hxw) ?_ w hw
      intro x hx
      rcases List.mem_cons.mp hx with hx | hx
      · subst hx; exact ⟨hcP, hc⟩
      · exact hacc x hx

theorem splitWs_props (P : Nat → Prop) {t : Str}
    (h : ∀ c ∈ t, isWs c = false → P c) :
    ∀ w ∈ splitWs t, w ≠ [] ∧ ∀ c ∈ w, P c ∧ isWs c = false :=
  splitWsAux_props P t [] h (by intro x hx; exact absurd hx (List.not_mem_nil x))

-- =========================================================================
-- Character invariants of the legal-name pipeline
-- =========================================================================

/-- A character that every pipeline stage leaves untouched: lowercase-fixed,
NFD-stable, not a combining mark, not replaced, not control, alphanumeric,
not whitespace. -/
def CleanP (c : Nat) : Prop :=
  rustToLower c = c ∧ nfdD c = [c] ∧ is_combining_mark c = false ∧
  replacementOf c = none ∧ is_control c = false ∧
  is_alphanumeric c = true ∧ isWs c = false

/-- Boolean version of `CleanP` for finite table checks. -/
def cleanCharB (c : Nat) : Bool :=
  (rustToLower c == c) && (nfdD c == [c]) && !is_combining_mark c &&
  (replacementOf c).isNone && !is_control c &&
  is_alphanumeric c && !isWs c

theorem cleanCharB_spec {c : Nat} (h : cleanCharB c = true) : CleanP c := by
  unfold cleanCharB at h
  simp only [Bool.and_eq_true, beq_iff_eq, Bool.not_eq_true',
    Option.isNone_iff_eq_none] at h
  exact ⟨h.1.1.1.1.1.1, h.1.1.1.1.1.2, h.1.1.1.1.2, h.1.1.1.2, h.1.1.2, h.1.2, h.2⟩

/-- A fixed token of the pipeline: nonempty, clean characters, not a key of
either abbreviation table. -/
def GoodTok (w : Str) : Prop :=
  w ≠ [] ∧ (∀ c ∈ w, CleanP c) ∧
  alFindS w legalSuffixExpansions = none ∧
  alFindS w commonAbbreviations = none

/-- Boolean version of `GoodTok` together with the stop-word exclusion. -/
def goodTokB (w : Str) : Bool :=
  !w.isEmpty && w.all cleanCharB &&
  (alFindS w legalSuffixExpansions).isNone &&
  (alFindS w commonAbbreviations).isNone && !isStopTok w

theorem goodTokB_spec {w : Str} (h : goodTokB w = true) :
    GoodTok w ∧ isStopTok w = false := by
  unfold goodTokB at h
  simp only [Bool.and_eq_true, Bool.not_eq_true', Option.isNone_iff_eq_none,
    List.all_eq_true] at h
  have hne : w ≠ [] := by
    intro hcontra
    subst hcontra
    simpa using h.1.1.1.1
  refine ⟨⟨hne, fun c hc => cleanCharB_spec (h.1.1.1.2 c hc), h.1.1.2, h.1.2⟩, h.2⟩

theorem rustToLower_idem (c : Nat) : rustToLower (rustToLower c) = rustToLower c := by
  unfold rustToLower
  split_ifs <;> omega

theorem alFindC_mem {k : Nat} {t : List (Nat × List Nat)} {v : List Nat}
    (h : alFindC k t = some v) : (k, v) ∈ t := by
  induction t with
  | nil => exact absurd h (by simp [alFindC])
  | cons p rest ih =>
    rw [alFindC] at h
    by_cases hk : p.1 = k
    · rw [if_pos hk] at h
      injection h with h
      subst h
      subst hk
      exact List.mem_cons_self _ _
    · rw [if_neg hk] at h
      exact List.mem_cons_of_mem p (ih h)

/-- Every character a table NFD decomposition produces is either a
combining mark (to be filtered) or itself a clean-stage character. -/
theorem nfdTable_good : ∀ p ∈ nfdTable, ∀ d ∈ p.2,
    is_combining_mark d = true ∨
      (rustToLower d = d ∧ nfdD d = [d] ∧ is_combining_mark d = false) := by
  decide

/-- Every character a replacement value produces keeps all accumulated
stage invariants and is itself unreplaced. -/
theorem replTable_good : ∀ p ∈ replTable, ∀ d ∈ p.2,
    rustToLower d = d ∧ nfdD d = [d] ∧ is_combining_mark d = false ∧
      replacementOf d = none := by
  decide

/-- Stage invariant after `normalize_unicode_basic` on lowercase-fixed text. -/
theorem normalize_unicode_basic_props {l : Str}
    (h : ∀ c ∈ l, rustToLower c = c) :
    ∀ d ∈ normalize_unicode_basic l,
      rustToLower d = d ∧ nfdD d = [d] ∧ is_combining_mark d = false ∧
        replacementOf d = none ∧ is_control d = false := by
  intro d hd
  unfold normalize_unicode_basic at hd
  simp only [List.mem_filter, Bool.not_eq_true'] at hd
  -- d comes from the replacement pass over the decomposed text
  rcases List.mem_flatMap.mp hd.1 with ⟨c, hc, hdc⟩
  simp only [List.mem_filter, Bool.not_eq_true'] at hc
  rcases List.mem_flatMap.mp hc.1 with ⟨b, hb, hcb⟩
  -- properties of c (post-NFD, non-combining)
  have hcprops : rustToLower c = c ∧ nfdD c = [c] ∧ is_combining_mark c = false := by
    unfold nfdD at hcb
    cases hfind : alFindC b nfdTable with
    | none =>
      rw [hfind] at hcb
      simp only [List.mem_cons, List.not_mem_nil, or_false] at hcb
      subst hcb
      refine ⟨h c hb, ?_, hc.2⟩
      unfold nfdD
      rw [hfind]
    | some v =>
      rw [hfind] at hcb
      have := nfdTable_good (b, v) (alFindC_mem hfind) c hcb
      rcases this with hcomb | hgood
      · rw [hc.2] at hcomb
        exact absurd hcomb (by simp)
      · exact ⟨hgood.1, hgood.2.1, hgood.2.2⟩
  -- properties of d (post-replacement)
  cases hrep : replacementOf c with
  | none =>
    rw [hrep] at hdc
    simp only [Option.getD_none, List.mem_cons, List.not_mem_nil, or_false] at hdc
    subst hdc
    exact ⟨hcprops.1, hcprops.2.1, hcprops.2.2, hrep, hd.2⟩
  | some v =>
    rw [hrep] at hdc
    simp only [Option.getD_some] at hdc
    have := replTable_good (c, v) (alFindC_mem hrep) d hdc
    exact ⟨this.1, this.2.1, this.2.2.1, this.2.2.2, hd.2⟩

/-- Stage invariant after `remove_punctuation`: whitespace or a fully clean
character. -/
theorem remove_punctuation_props {l : Str}
    (h : ∀ c ∈ l, rustToLower c = c ∧ nfdD c = [c] ∧ is_combining_mark c = false ∧
      replacementOf c = none ∧ is_control c = false) :
    ∀ d ∈ remove_punctuation l, isWs d = false → CleanP d := by
  intro d hd hdws
  unfold remove_punctuation at hd
  rcases List.mem_map.mp hd with ⟨c, hc, hdc⟩
  by_cases halnum : is_alphanumeric c || isWs c
  · rw [if_pos halnum] at hdc
    subst hdc
    have hprops := h c hc
    rcases Bool.or_eq_true _ _ ▸ halnum with ha | hw
    · exact ⟨hprops.1, hprops.2.1, hprops.2.2.1, hprops.2.2.2.1, hprops.2.2.2.2,
        ha, hdws⟩
    · rw [hw] at hdws
      exact absurd hdws (by simp)
  · rw [if_neg halnum] at hdc
    subst hdc
    exact absurd (by decide : isWs 32 = true) (by rw [hdws]; simp)

/-- Every word of every legal-suffix expansion is a fixed token: clean,
not itself a key of either table, and not a stop word. -/
theorem legalValues_good :
    legalSuffixExpansions.all (fun p => (splitWs p.2).all goodTokB) = true := by
  decide

/-- Every word of every common-abbreviation expansion is a fixed token. -/
theorem commonValues_good :
    commonAbbreviations.all (fun p => (splitWs p.2).all goodTokB) = true := by
  decide

theorem alFindS_mem {k : Str} {t : List (Str × Str)} {v : Str}
    (h : alFindS k t = some v) : (k, v) ∈ t := by
  induction t with
  | nil => exact absurd h (by simp [alFindS])
  | cons p rest ih =>
    rw [alFindS] at h
    by_cases hk : p.1 = k
    · rw [if_pos hk] at h
      injection h with h
      subst h
      subst hk
      exact List.mem_cons_self _ _
    · rw [if_neg hk] at h
      exact List.mem_cons_of_mem p (ih h)

/-- Expansion of a clean token splits into fixed tokens only. -/
theorem expand_token_good {u : Str} (hne : u ≠ []) (hclean : ∀ c ∈ u, CleanP c) :
    ∀ w ∈ splitWs (expand_token u), GoodTok w := by
  intro w hw
  have hlower : u.map rustToLower = u :=
    map_id_of rustToLower u (fun c hc => (hclean c hc).1)
  simp only [expand_token] at hw
  rw [hlower] at hw
  cases hfind : alFindS u legalSuffixExpansions with
  | some v =>
    rw [hfind] at hw
    have hmem := alFindS_mem hfind
    have hall := List.all_eq_true.mp legalValues_good (u, v) hmem
    have := List.all_eq_true.mp hall w hw
    exact (goodTokB_spec this).1
  | none =>
    rw [hfind] at hw
    cases hfind2 : alFindS u commonAbbreviations with
    | some v =>
      rw [hfind2] at hw
      have hmem := alFindS_mem hfind2
      have hall := List.all_eq_true.mp commonValues_good (u, v) hmem
      have := List.all_eq_true.mp hall w hw
      exact (goodTokB_spec this).1
    | none =>
      rw [hfind2] at hw
      rw [splitWs_single hne (fun c hc => (hclean c hc).2.2.2.2.2.2)] at hw
      simp only [List.mem_cons, List.not_mem_nil, or_false] at hw
      subst hw
      exact ⟨hne, hclean, hfind, hfind2⟩

/-- A fixed token is left unchanged by `expand_token`. -/
theorem expand_token_fixed {w : Str} (h : GoodTok w) : expand_token w = w := by
  simp only [expand_token]
  rw [map_id_of rustToLower w (fun c hc => (h.2.1 c hc).1), h.2.2.1, h.2.2.2]

/-- Stop-word removal without the preserve-initial flag filters tokens. -/
theorem remove_stop_words_false (t : Str) :
    remove_stop_words t false =
      joinSpace ((splitWs t).filter (fun w => !isStopTok w)) := by
  unfold remove_stop_words
  cases hsplit : splitWs t with
  | nil => rfl
  | cons t0 rest =>
    cases h0 : isStopTok t0 with
    | true => simp [List.filter_cons, h0]
    | false => simp [List.filter_cons, h0]

/-- Lemma A: the legal-name pipeline always emits a space-joined list of
fixed non-stop-word tokens. -/
theorem normalize_output_good (name : Str) :
    ∃ ws : List Str, (∀ w ∈ ws, GoodTok w ∧ isStopTok w = false) ∧
      normalize_legal_name name true false = joinSpace ws := by
  by_cases hname : name = []
  · exact ⟨[], by simp, by rw [hname]; rfl⟩
  · have hpipe : normalize_legal_name name true false =
        collapse_whitespace (remove_stop_words (expand_abbreviations
          (collapse_whitespace (remove_punctuation (normalize_unicode_basic
            (name.map rustToLower))))) false) := by
      unfold normalize_legal_name
      rw [if_neg hname]
      rfl
    -- stage invariants
    have h1 : ∀ c ∈ name.map rustToLower, rustToLower c = c := by
      intro c hc
      rcases List.mem_map.mp hc with ⟨b, _, hb⟩
      subst hb
      exact rustToLower_idem b
    have h2 := normalize_unicode_basic_props h1
    have h3 := remove_punctuation_props h2
    -- tokens of the collapsed text are clean
    have htoks4 := splitWs_props CleanP (fun c hc hcws => h3 c hc hcws)
    set toks4 := splitWs (remove_punctuation (normalize_unicode_basic
      (name.map rustToLower))) with htoks4def
    have htoks4' : ∀ w ∈ toks4, w ≠ [] ∧ ∀ c ∈ w, CleanP c := by
      intro w hw
      have := htoks4 w hw
      exact ⟨this.1, fun c hc => (this.2 c hc).1⟩
    -- collapse then re-split gives the same tokens
    have hresplit : splitWs (collapse_whitespace (remove_punctuation
        (normalize_unicode_basic (name.map rustToLower)))) = toks4 := by
      unfold collapse_whitespace
      exact splitWs_joinSpace (by
        intro w hw
        have := htoks4 w hw
        exact ⟨this.1, fun c hc => (this.2 c hc).2⟩)
    -- tokens after abbreviation expansion
    have htoks5 : ∀ w ∈ (toks4.map expand_token).flatMap splitWs, GoodTok w := by
      intro w hw
      rcases List.mem_flatMap.mp hw with ⟨e, he, hwe⟩
      rcases List.mem_map.mp he with ⟨u, hu, hue⟩
      subst hue
      have hu' := htoks4' u hu
      exact expand_token_good hu'.1 hu'.2 w hwe
    have hsplit5 : splitWs (expand_abbreviations (collapse_whitespace
        (remove_punctuation (normalize_unicode_basic (name.map rustToLower))))) =
        (toks4.map expand_token).flatMap splitWs := by
      unfold expand_abbreviations
      rw [hresplit, splitWs_joinSpace_flat]
    -- final token list after stop-word filtering
    refine ⟨((toks4.map expand_token).flatMap splitWs).filter (fun w => !isStopTok w),
      ?_, ?_⟩
    · intro w hw
      have hmem := List.mem_filter.mp hw
      refine ⟨htoks5 w hmem.1, ?_⟩
      have := hmem.2
      simpa using this
    · rw [hpipe, remove_stop_words_false, hsplit5]
      unfold collapse_whitespace
      apply congrArg
      apply splitWs_joinSpace
      intro w hw
      have hmem := List.mem_filter.mp hw
      have hg := htoks5 w hmem.1
      exact ⟨hg.1, fun c hc => (hg.2.1 c hc).2.2.2.2.2.2⟩

/-- Lemma B: a space-joined list of fixed non-stop-word tokens is a fixed
point of the legal-name pipeline. -/
theorem normalize_fixed {ws : List Str}
    (h : ∀ w ∈ ws, GoodTok w ∧ isStopTok w = false) :
    normalize_legal_name (joinSpace ws) true false = joinSpace ws := by
  cases hws : ws with
  | nil => rfl
  | cons w0 rest =>
    subst hws
    have hne : joinSpace (w0 :: rest) ≠ [] :=
      joinSpace_ne_nil (List.cons_ne_nil w0 rest)
        (fun w hw => ((h w hw).1).1)
    set y := joinSpace (w0 :: rest) with hy
    have hchar : ∀ c ∈ y, c = 32 ∨ CleanP c := by
      intro c hc
      rcases mem_joinSpace hc with h32 | ⟨w, hw, hcw⟩
      · exact Or.inl h32
      · exact Or.inr (((h w hw).1).2.1 c hcw)
    have hpipe : normalize_legal_name y true false =
        collapse_whitespace (remove_stop_words (expand_abbreviations
          (collapse_whitespace (remove_punctuation (normalize_unicode_basic
            (y.map rustToLower))))) false) := by
      unfold normalize_legal_name
      rw [if_neg hne]
      rfl
    rw [hpipe]
    -- step 1: lowercasing is the identity
    have hstep1 : y.map rustToLower = y := by
      apply map_id_of
      intro c hc
      rcases hchar c hc with h32 | hcl
      · subst h32; decide
      · exact hcl.1
    rw [hstep1]
    -- step 2: unicode normalization is the identity
    have hstep2 : normalize_unicode_basic y = y := by
      have hdef : normalize_unicode_basic y =
          ((((y.flatMap nfdD).filter (fun c => !is_combining_mark c)).flatMap
            (fun c => (replacementOf c).getD [c])).filter (fun c => !is_control c)) := rfl
      rw [hdef]
      have hnfd : y.flatMap nfdD = y := by
        apply flatMap_id_of
        intro c hc
        rcases hchar c hc with h32 | hcl
        · subst h32; decide
        · exact hcl.2.1
      rw [hnfd]
      have hcomb : y.filter (fun c => !is_combining_mark c) = y := by
        rw [List.filter_eq_self]
        intro c hc
        rcases hchar c hc with h32 | hcl
        · subst h32; decide
        · simp [hcl.2.2.1]
      rw [hcomb]
      have hrepl : (y.flatMap fun c => (replacementOf c).getD [c]) = y := by
        apply flatMap_id_of
        intro c hc
        rcases hchar c hc with h32 | hcl
        · subst h32; decide
        · rw [hcl.2.2.2.1]; rfl
      rw [hrepl]
      rw [List.filter_eq_self]
      intro c hc
      rcases hchar c hc with h32 | hcl
      · subst h32; decide
      · simp [hcl.2.2.2.2.1]
    rw [hstep2]
    -- step 3: punctuation removal is the identity
    have hstep3 : remove_punctuation y = y := by
      apply map_id_of
      intro c hc
      rcases hchar c hc with h32 | hcl
      · subst h32; decide
      · simp [hcl.2.2.2.2.2.1]
    rw [hstep3]
    -- splitting y recovers the token list
    have hsplity : splitWs y = w0 :: rest := by
      apply splitWs_joinSpace
      intro w hw
      exact ⟨((h w hw).1).1, fun c hc => (((h w hw).1).2.1 c hc).2.2.2.2.2.2⟩
    -- step 4: whitespace collapse is the identity
    have hstep4 : collapse_whitespace y = y := by
      unfold collapse_whitespace
      rw [hsplity]
    rw [hstep4]
    -- step 5: abbreviation expansion is the identity
    have hstep5 : expand_abbreviations y = y := by
      unfold expand_abbreviations
      rw [hsplity, map_id_of expand_token _ (fun w hw => expand_token_fixed (h w hw).1)]
    rw [hstep5]
    -- step 6: stop-word removal is the identity
    have hstep6 : remove_stop_words y false = y := by
      rw [remove_stop_words_false, hsplity, List.filter_eq_self.mpr]
      intro w hw
      simp [(h w hw).2]
    rw [hstep6, hstep4]

-- =========================================================================
-- Generator-level lemmas
-- =========================================================================

theorem generate_snfei_snfei_eq (legalName countryCode : Str)
    (address registrationDate : Option Str) :
    (generate_snfei legalName countryCode address registrationDate).snfei =
      compute_snfei (build_canonical_input legalName countryCode address registrationDate) := rfl

theorem generate_snfei_tier_eq (legalName countryCode : Str)
    (address registrationDate : Option Str) :
    (generate_snfei legalName countryCode address registrationDate).tier = 3 := rfl

theorem generate_snfei_with_confidence_eq (legalName countryCode : Str)
    (address registrationDate lei samUei : Option Str) :
    generate_snfei_with_confidence legalName countryCode address registrationDate lei samUei =
      (if leiTrigger lei then
        { snfei := compute_snfei (build_canonical_input legalName countryCode address registrationDate)
        , canonical := build_canonical_input legalName countryCode address registrationDate
        , confidence_score := 1, tier := 1
        , fields_used := [ofString "lei", ofString "legal_name", ofString "country_code"] }
       else if ueiTrigger samUei then
        { snfei := compute_snfei (build_canonical_input legalName countryCode address registrationDate)
        , canonical := build_canonical_input legalName countryCode address registrationDate
        , confidence_score := 95 / 100, tier := 2
        , fields_used := [ofString "sam_uei", ofString "legal_name", ofString "country_code"] }
       else generate_snfei legalName countryCode address registrationDate) := rfl

theorem generate_snfei_confidence_eq (legalName countryCode : Str)
    (address registrationDate : Option Str) :
    (generate_snfei legalName countryCode address registrationDate).confidence_score =
      min ((1 : ℚ) / 2 +
        (if has_address (build_canonical_input legalName countryCode address registrationDate)
          then (1 : ℚ) / 5 else 0) +
        (if has_reg_date (build_canonical_input legalName countryCode address registrationDate)
          then (1 : ℚ) / 5 else 0) +
        (if 3 < name_word_count (build_canonical_input legalName countryCode address registrationDate)
          then (1 : ℚ) / 10 else 0)) ((9 : ℚ) / 10) := by
  have hdef : (generate_snfei legalName countryCode address registrationDate).confidence_score =
      (let c0 : ℚ := 1 / 2
       let c1 := if has_address (build_canonical_input legalName countryCode address registrationDate)
         then c0 + 1 / 5 else c0
       let c2 := if has_reg_date (build_canonical_input legalName countryCode address registrationDate)
         then c1 + 1 / 5 else c1
       let c3 := if 3 < name_word_count (build_canonical_input legalName countryCode address registrationDate)
         then c2 + 1 / 10 else c2
       let c4 := min c3 (9 / 10)
       let c5 := if c4 < (0 : ℚ) then (0 : ℚ) else if (1 : ℚ) < c4 then (1 : ℚ) else c4
       rustRound (c5 * 100) / 100) := rfl
  rw [hdef]
  by_cases ha : has_address (build_canonical_input legalName countryCode address registrationDate) = true <;>
  by_cases hd : has_reg_date (build_canonical_input legalName countryCode address registrationDate) = true <;>
  by_cases hw : 3 < name_word_count (build_canonical_input legalName countryCode address registrationDate) <;>
  simp only [ha, hd, hw, if_true, if_false, Bool.not_eq_true, min_def] <;>
  norm_num [rustRound]

-- =========================================================================
-- Claim theorems: C1, C2, C3
-- =========================================================================

/-- C1: the SNFEI returned by both generator entry points is the SHA-256 of
exactly `CanonicalInput::to_hash_string()` (never `to_hash_string_v2`, from
which it differs on inputs with absent optional fields); and for
legal name "Société Générale S.A.", country "fr", address
"10 Boulevard Haussmann, Paris", date "2010-05-01", the hash pre-image is
exactly "societe generale s|10 boulevard haussmann paris|FR|2010-05-01". -/
theorem c1_snfei_preimage :
    (∀ (legalName countryCode : Str) (address registrationDate : Option Str),
      (generate_snfei legalName countryCode address registrationDate).snfei =
        bytesToHex (sha256 (utf8Encode
          (build_canonical_input legalName countryCode address registrationDate).to_hash_string))) ∧
    (∀ (legalName countryCode : Str) (address registrationDate lei samUei : Option Str),
      (generate_snfei_with_confidence legalName countryCode address registrationDate
          lei samUei).snfei =
        bytesToHex (sha256 (utf8Encode
          (build_canonical_input legalName countryCode address registrationDate).to_hash_string))) ∧
    (build_canonical_input (ofString "Société Générale S.A.") (ofString "fr")
        (some (ofString "10 Boulevard Haussmann, Paris"))
        (some (ofString "2010-05-01"))).to_hash_string =
      ofString "societe generale s|10 boulevard haussmann paris|FR|2010-05-01" ∧
    (build_canonical_input (ofString "Springfield USD") (ofString "US")
        none none).to_hash_string ≠
      (build_canonical_input (ofString "Springfield USD") (ofString "US")
        none none).to_hash_string_v2 := by
  refine ⟨fun legalName countryCode address registrationDate => rfl,
    fun legalName countryCode address registrationDate lei samUei => ?_, by decide, by decide⟩
  rw [generate_snfei_with_confidence_eq]
  cases hl : leiTrigger lei with
  | true => rw [if_pos rfl]; rfl
  | false =>
    rw [if_neg Bool.false_ne_true]
    cases hu : ueiTrigger samUei with
    | true => rw [if_pos rfl]; rfl
    | false =>
      rw [if_neg Bool.false_ne_true]
      exact generate_snfei_snfei_eq legalName countryCode address registrationDate

/-- C2 counterexample: an LEI of exactly 20 characters that are not all
ASCII (20 times "é", hence 40 UTF-8 bytes) does not trigger Tier 1 — the
source compares `str::len()`, the byte length, against 20 — so the claim's
"exactly 20 characters" tier table is violated at this input. -/
theorem c2_tier_trigger_counterexample :
    (ofString "éééééééééééééééééééé").length = 20 ∧
    (generate_snfei_with_confidence (ofString "Acme") (ofString "US") none none
        (some (ofString "éééééééééééééééééééé")) none).tier = 3 := by
  constructor
  · decide
  · rw [generate_snfei_with_confidence_eq, if_neg (by decide), if_neg (by decide)]
    exact generate_snfei_tier_eq (ofString "Acme") (ofString "US") none none

/-- C2 (amended: the tier triggers compare UTF-8 byte lengths, not
character counts): `generate_snfei_with_confidence` classifies by the tier
table — a present 20-byte LEI gives tier 1 and confidence 1.00 regardless
of everything else; otherwise a present 12-byte SAM UEI gives tier 2 and
confidence 0.95; otherwise tier 3 with confidence
0.5 + 0.2·[address] + 0.2·[date] + 0.1·[name words > 3] capped at 0.9
(a value already exact to 2 decimals); in every tier the returned SNFEI is
the hash of the canonical input. -/
theorem c2_tier_classification (legalName countryCode : Str)
    (address registrationDate lei samUei : Option Str) :
    ((generate_snfei_with_confidence legalName countryCode address registrationDate
        lei samUei).snfei =
      compute_snfei (build_canonical_input legalName countryCode address registrationDate)) ∧
    ((∃ l, lei = some l ∧ utf8Len l = 20) →
      (generate_snfei_with_confidence legalName countryCode address registrationDate
        lei samUei).tier = 1 ∧
      (generate_snfei_with_confidence legalName countryCode address registrationDate
        lei samUei).confidence_score = 1) ∧
    ((¬ ∃ l, lei = some l ∧ utf8Len l = 20) → (∃ u, samUei = some u ∧ utf8Len u = 12) →
      (generate_snfei_with_confidence legalName countryCode address registrationDate
        lei samUei).tier = 2 ∧
      (generate_snfei_with_confidence legalName countryCode address registrationDate
        lei samUei).confidence_score = 95 / 100) ∧
    ((¬ ∃ l, lei = some l ∧ utf8Len l = 20) → (¬ ∃ u, samUei = some u ∧ utf8Len u = 12) →
      (generate_snfei_with_confidence legalName countryCode address registrationDate
        lei samUei).tier = 3 ∧
      (generate_snfei_with_confidence legalName countryCode address registrationDate
        lei samUei).confidence_score =
        min ((1 : ℚ) / 2 +
          (if has_address (build_canonical_input legalName countryCode address registrationDate)
            then (1 : ℚ) / 5 else 0) +
          (if has_reg_date (build_canonical_input legalName countryCode address registrationDate)
            then (1 : ℚ) / 5 else 0) +
          (if 3 < name_word_count (build_canonical_input legalName countryCode address registrationDate)
            then (1 : ℚ) / 10 else 0)) ((9 : ℚ) / 10)) := by
  have htrigger_lei : leiTrigger lei = true ↔ ∃ l, lei = some l ∧ utf8Len l = 20 := by
    cases lei with
    | none => simp [leiTrigger]
    | some l => simp [leiTrigger]
  have htrigger_uei : ueiTrigger samUei = true ↔ ∃ u, samUei = some u ∧ utf8Len u = 12 := by
    cases samUei with
    | none => simp [ueiTrigger]
    | some u => simp [ueiTrigger]
  refine ⟨(c1_snfei_preimage.2.1 legalName countryCode address registrationDate lei samUei),
    ?_, ?_, ?_⟩
  · intro hex
    have hl : leiTrigger lei = true := htrigger_lei.mpr hex
    rw [generate_snfei_with_confidence_eq, if_pos hl]
    exact ⟨rfl, rfl⟩
  · intro hnl hex
    have hl : ¬ leiTrigger lei = true := fun hcase => hnl (htrigger_lei.mp hcase)
    have hu : ueiTrigger samUei = true := htrigger_uei.mpr hex
    rw [generate_snfei_with_confidence_eq, if_neg hl, if_pos hu]
    exact ⟨rfl, rfl⟩
  · intro hnl hnu
    have hl : ¬ leiTrigger lei = true := fun hcase => hnl (htrigger_lei.mp hcase)
    have hu : ¬ ueiTrigger samUei = true := fun hcase => hnu (htrigger_uei.mp hcase)
    rw [generate_snfei_with_confidence_eq, if_neg hl, if_neg hu]
    exact ⟨generate_snfei_tier_eq legalName countryCode address registrationDate,
      generate_snfei_confidence_eq legalName countryCode address registrationDate⟩

/-- C2 witness: the amended tier theorem applied at concrete inputs of each
tier (a 20-byte ASCII LEI, a 12-byte SAM UEI, and neither). -/
theorem c2_tier_classification_witness :
    (generate_snfei_with_confidence (ofString "Acme Corp") (ofString "US") none none
      (some (ofString "529900T8BM49AURSDO55")) none).tier = 1 ∧
    (generate_snfei_with_confidence (ofString "Acme Corp") (ofString "US") none none
      none (some (ofString "J6H4FB3N5YK7"))).tier = 2 ∧
    (generate_snfei_with_confidence (ofString "Acme Corp") (ofString "US") none none
      none none).tier = 3 :=
  ⟨((c2_tier_classification (ofString "Acme Corp") (ofString "US") none none
      (some (ofString "529900T8BM49AURSDO55")) none).2.1
      ⟨ofString "529900T8BM49AURSDO55", rfl, by decide⟩).1,
   ((c2_tier_classification (ofString "Acme Corp") (ofString "US") none none
      none (some (ofString "J6H4FB3N5YK7"))).2.2.1
      (by rintro ⟨l, hl, -⟩; exact Option.noConfusion hl)
      ⟨ofString "J6H4FB3N5YK7", rfl, by decide⟩).1,
   ((c2_tier_classification (ofString "Acme Corp") (ofString "US") none none
      none none).2.2.2
      (by rintro ⟨l, hl, -⟩; exact Option.noConfusion hl)
      (by rintro ⟨u, hu, -⟩; exact Option.noConfusion hu)).1⟩

/-- C3: `normalize_legal_name` with stop-word removal enabled and
`preserve_initial` false is idempotent on every string. -/
theorem c3_normalize_legal_name_idempotent (x : Str) :
    normalize_legal_name (normalize_legal_name x true false) true false =
      normalize_legal_name x true false := by
  obtain ⟨ws, hws, heq⟩ := normalize_output_good x
  rw [heq]
  exact normalize_fixed hws

-- =========================================================================
-- Claim theorems: C4, C5, C7
-- =========================================================================

/-- C4 counterexample: a record built by `new` (revision 1) and then given a
previous-record hash by `with_previous_hash` still validates Ok with
revision 1, so `validate` does not enforce revision at least 2 when a
previous hash is present. -/
theorem c4_previous_hash_revision_counterexample :
    ((EntityRecord.new (ofString "cep-entity:sam-uei:J6H4FB3N5YK7")
        { sam_uei := some ⟨ofString "J6H4FB3N5YK7"⟩ }
        (ofString "Acme Consulting LLC") (ofString "US-CA")
        ⟨EntityStatusCode.active, ofString "2020-01-15", none, none⟩
        ⟨ofString "attestor", ofString "2025-11-28", ofString "t", ofString "v",
          ofString "m"⟩).with_previous_hash
        ⟨ofString "aaaaaaaaaaaaaaaaaaaaaaaaaaaaaaaaaaaaaaaaaaaaaaaaaaaaaaaaaaaaaaaa"⟩).validate =
      .ok () ∧
    ((EntityRecord.new (ofString "cep-entity:sam-uei:J6H4FB3N5YK7")
        { sam_uei := some ⟨ofString "J6H4FB3N5YK7"⟩ }
        (ofString "Acme Consulting LLC") (ofString "US-CA")
        ⟨EntityStatusCode.active, ofString "2020-01-15", none, none⟩
        ⟨ofString "attestor", ofString "2025-11-28", ofString "t", ofString "v",
          ofString "m"⟩).with_previous_hash
        ⟨ofString "aaaaaaaaaaaaaaaaaaaaaaaaaaaaaaaaaaaaaaaaaaaaaaaaaaaaaaaaaaaaaaaa"⟩).previous_record_hash.isSome =
      true ∧
    ((EntityRecord.new (ofString "cep-entity:sam-uei:J6H4FB3N5YK7")
        { sam_uei := some ⟨ofString "J6H4FB3N5YK7"⟩ }
        (ofString "Acme Consulting LLC") (ofString "US-CA")
        ⟨EntityStatusCode.active, ofString "2020-01-15", none, none⟩
        ⟨ofString "attestor", ofString "2025-11-28", ofString "t", ofString "v",
          ofString "m"⟩).with_previous_hash
        ⟨ofString "aaaaaaaaaaaaaaaaaaaaaaaaaaaaaaaaaaaaaaaaaaaaaaaaaaaaaaaaaaaaaaaa"⟩).revision_number =
      1 := by
  refine ⟨rfl, rfl, rfl⟩

/-- C4 (amended: `validate` only enforces the first half of the claimed
invariant): every `EntityRecord` on which `validate()` returns Ok has
revision number at least 1; a present `previous_record_hash` is not
checked against the revision number. -/
theorem c4_validate_revision_at_least_one (r : EntityRecord)
    (h : r.validate = .ok ()) : 1 ≤ r.revision_number := by
  unfold EntityRecord.validate at h
  split_ifs at h with h1 h2 h3 h4 h5 h6
  all_goals first
    | exact Except.noConfusion h
    | omega

/-- C4 witness: the revision bound applied to a concrete valid record. -/
theorem c4_validate_revision_witness :
    1 ≤ (EntityRecord.new (ofString "cep-entity:sam-uei:J6H4FB3N5YK7")
        { sam_uei := some ⟨ofString "J6H4FB3N5YK7"⟩ }
        (ofString "Acme Consulting LLC") (ofString "US-CA")
        ⟨EntityStatusCode.active, ofString "2020-01-15", none, none⟩
        ⟨ofString "attestor", ofString "2025-11-28", ofString "t", ofString "v",
          ofString "m"⟩).revision_number :=
  c4_validate_revision_at_least_one _ rfl

/-- C5: `primary_identifier` returns None exactly when `has_any` is false,
and otherwise the identifier of the first present slot in the priority
order LEI, SAM UEI, SNFEI, Canadian BN, first additional scheme, wrapped
as a `cep-entity:` URI; in particular with a SAM UEI and an SNFEI both
present (and no LEI) the result starts with "cep-entity:sam-uei:". -/
theorem c5_primary_identifier_priority :
    (∀ ids : EntityIdentifiers, ids.primary_identifier = none ↔ ids.has_any = false) ∧
    (∀ (ids : EntityIdentifiers) (l : Lei), ids.lei = some l →
      ids.primary_identifier = some (ofString "cep-entity:lei:" ++ l.val)) ∧
    (∀ (ids : EntityIdentifiers) (u : SamUei), ids.lei = none → ids.sam_uei = some u →
      ids.primary_identifier = some (ofString "cep-entity:sam-uei:" ++ u.val)) ∧
    (∀ (ids : EntityIdentifiers) (s : Snfei), ids.lei = none → ids.sam_uei = none →
      ids.snfei = some s →
      ids.primary_identifier = some (ofString "cep-entity:snfei:" ++ s.value)) ∧
    (∀ (ids : EntityIdentifiers) (b : CanadianBn), ids.lei = none → ids.sam_uei = none →
      ids.snfei = none → ids.canadian_bn = some b →
      ids.primary_identifier = some (ofString "cep-entity:canadian-bn:" ++ b.val)) ∧
    (∀ (ids : EntityIdentifiers) (a : AdditionalScheme) (rest : List AdditionalScheme),
      ids.lei = none → ids.sam_uei = none → ids.snfei = none → ids.canadian_bn = none →
      ids.additional_schemes = some (a :: rest) →
      ids.primary_identifier = some (ofString "cep-entity:other:" ++ a.value)) ∧
    (∀ (ids : EntityIdentifiers) (u : SamUei) (s : Snfei), ids.lei = none →
      ids.sam_uei = some u → ids.snfei = some s →
      ∃ t, ids.primary_identifier = some (ofString "cep-entity:sam-uei:" ++ t)) := by
  refine ⟨?_, ?_, ?_, ?_, ?_, ?_, ?_⟩
  · intro ids
    obtain ⟨sam, lei, snf, bn, add⟩ := ids
    cases lei <;> cases sam <;> cases snf <;> cases bn <;>
      rcases add with _ | (_ | ⟨a, rest⟩) <;>
      simp [EntityIdentifiers.primary_identifier, EntityIdentifiers.has_any]
  · intro ids l hlei
    simp [EntityIdentifiers.primary_identifier, hlei]
  · intro ids u hlei hsam
    simp [EntityIdentifiers.primary_identifier, hlei, hsam]
  · intro ids s hlei hsam hsnf
    simp [EntityIdentifiers.primary_identifier, hlei, hsam, hsnf]
  · intro ids b hlei hsam hsnf hbn
    simp [EntityIdentifiers.primary_identifier, hlei, hsam, hsnf, hbn]
  · intro ids a rest hlei hsam hsnf hbn hadd
    simp [EntityIdentifiers.primary_identifier, hlei, hsam, hsnf, hbn, hadd]
  · intro ids u s hlei hsam _
    exact ⟨u.val, by simp [EntityIdentifiers.primary_identifier, hlei, hsam]⟩

/-- C5 witness: the priority equations applied to concrete identifier sets,
reproducing the SAM-UEI-over-SNFEI test. -/
theorem c5_primary_identifier_witness :
    ({ sam_uei := some ⟨ofString "J6H4FB3N5YK7"⟩,
       snfei := some ⟨ofString "aa"⟩ } : EntityIdentifiers).primary_identifier =
      some (ofString "cep-entity:sam-uei:" ++ ofString "J6H4FB3N5YK7") ∧
    ({ lei := some ⟨ofString "5493001KJTIIGC8Y1R12"⟩,
       sam_uei := some ⟨ofString "J6H4FB3N5YK7"⟩ } : EntityIdentifiers).primary_identifier =
      some (ofString "cep-entity:lei:" ++ ofString "5493001KJTIIGC8Y1R12") ∧
    (({} : EntityIdentifiers).primary_identifier = none) :=
  ⟨c5_primary_identifier_priority.2.2.1 _ ⟨ofString "J6H4FB3N5YK7"⟩ rfl rfl,
   c5_primary_identifier_priority.2.1 _ ⟨ofString "5493001KJTIIGC8Y1R12"⟩ rfl,
   (c5_primary_identifier_priority.1 {}).mpr rfl⟩

-- Share-counting helper for C7
theorem filterMap_length_iff {α β : Type} (f : α → Option β) :
    ∀ l : List α, (l.filterMap f).length = l.length ↔ ∀ a ∈ l, f a ≠ none := by
  intro l
  induction l with
  | nil => simp
  | cons a as ih =>
    rw [List.filterMap_cons]
    cases hfa : f a with
    | none =>
      simp only [List.length_cons]
      constructor
      · intro hlen
        have hle := List.length_filterMap_le f as
        omega
      · intro hall
        exact absurd hfa (hall a (List.mem_cons_self a as))
    | some b =>
      simp only [List.length_cons]
      constructor
      · intro hlen
        intro x hx
        rcases List.mem_cons.mp hx with hx | hx
        · subst hx; rw [hfa]; exact Option.noConfusion
        · exact ih.mp (by omega) x hx
      · intro hall
        have := ih.mpr (fun x hx => hall x (List.mem_cons_of_mem a hx))
        omega

/-- Characterization of `validate_shares` success. -/
theorem validate_shares_ok_iff (s : MultilateralMembers) :
    validate_shares s = .ok () ↔
      ((∀ m ∈ s, m.participation_share = none) ∨
       ((∀ m ∈ s, m.participation_share ≠ none) ∧
        |(s.filterMap (fun m => m.participation_share)).sum - 1| ≤ 1 / 10000)) := by
  have hdef : validate_shares s =
      (if (s.filterMap (fun m => m.participation_share)).isEmpty then Except.ok ()
       else if (s.filterMap (fun m => m.participation_share)).length ≠ s.length then
         Except.error (ofString "All members must have participation shares if any do")
       else if 1 / 10000 < |(s.filterMap (fun m => m.participation_share)).sum - 1| then
         Except.error (ofString "Participation shares must sum to 1.0, got " ++
           fmt4 (s.filterMap (fun m => m.participation_share)).sum)
       else Except.ok ()) := rfl
  rw [hdef]
  split_ifs with hempty hlen htol
  · simp only [List.isEmpty_iff] at hempty
    rw [List.filterMap_eq_nil_iff] at hempty
    constructor
    · intro _
      exact Or.inl hempty
    · intro _
      rfl
  · constructor
    · intro h
      exact h.elim
    · intro h
      exfalso
      rcases h with hnone | ⟨hsome, _⟩
      · simp only [List.isEmpty_iff] at hempty
        exact hempty (List.filterMap_eq_nil_iff.mpr hnone)
      · exact hlen ((filterMap_length_iff _ s).mpr hsome)
  · constructor
    · intro h
      exact h.elim
    · intro h
      exfalso
      rcases h with hnone | ⟨_, htol2⟩
      · simp only [List.isEmpty_iff] at hempty
        exact hempty (List.filterMap_eq_nil_iff.mpr hnone)
      · exact absurd htol2 (not_le.mpr htol)
  · constructor
    · intro _
      exact Or.inr ⟨(filterMap_length_iff (fun m => m.participation_share) s).mp (by omega),
        not_lt.mp htol⟩
    · intro _
      rfl

/-- C7: `validate_shares` returns Ok exactly when either no member carries
a participation share, or every member carries one and the total is within
1e-4 of 1.0; and the concrete share sets {0.5, 0.3} fail while
{0.5, 0.3, 0.2} pass. -/
theorem c7_validate_shares_characterization :
    (∀ s : MultilateralMembers,
      validate_shares s = .ok () ↔
        ((∀ m ∈ s, m.participation_share = none) ∨
         ((∀ m ∈ s, m.participation_share ≠ none) ∧
          |(s.filterMap (fun m => m.participation_share)).sum - 1| ≤ 1 / 10000))) ∧
    (validate_shares (mmFromList
      [(Member.new (ofString "a") (ofString "role")).with_share (1 / 2),
       (Member.new (ofString "b") (ofString "role")).with_share (3 / 10)]) ≠ .ok ()) ∧
    (validate_shares (mmFromList
      [(Member.new (ofString "a") (ofString "role")).with_share (1 / 2),
       (Member.new (ofString "b") (ofString "role")).with_share (3 / 10),
       (Member.new (ofString "c") (ofString "role")).with_share (1 / 5)]) = .ok ()) := by
  refine ⟨validate_shares_ok_iff, ?_, ?_⟩
  · intro h
    have hfl : mmFromList
        [(Member.new (ofString "a") (ofString "role")).with_share (1 / 2),
         (Member.new (ofString "b") (ofString "role")).with_share (3 / 10)] =
        [(Member.new (ofString "a") (ofString "role")).with_share (1 / 2),
         (Member.new (ofString "b") (ofString "role")).with_share (3 / 10)] := rfl
    rcases (validate_shares_ok_iff _).mp h with hnone | ⟨_, htol⟩
    · have := hnone ((Member.new (ofString "a") (ofString "role")).with_share (1 / 2))
        (by rw [hfl]; exact List.mem_cons_self _ _)
      simp [Member.with_share] at this
    · rw [hfl] at htol
      simp only [List.filterMap_cons, List.filterMap_nil, Member.with_share,
        Member.new, List.sum_cons, List.sum_nil] at htol
      rw [abs_le] at htol
      have := htol.1
      norm_num at this
  · apply (validate_shares_ok_iff _).mpr
    have hfl : mmFromList
        [(Member.new (ofString "a") (ofString "role")).with_share (1 / 2),
         (Member.new (ofString "b") (ofString "role")).with_share (3 / 10),
         (Member.new (ofString "c") (ofString "role")).with_share (1 / 5)] =
        [(Member.new (ofString "a") (ofString "role")).with_share (1 / 2),
         (Member.new (ofString "b") (ofString "role")).with_share (3 / 10),
         (Member.new (ofString "c") (ofString "role")).with_share (1 / 5)] := rfl
    refine Or.inr ⟨?_, ?_⟩
    · intro m hm
      rw [hfl] at hm
      rcases List.mem_cons.mp hm with hm | hm
      · subst hm; simp [Member.with_share]
      rcases List.mem_cons.mp hm with hm | hm
      · subst hm; simp [Member.with_share]
      rcases List.mem_cons.mp hm with hm | hm
      · subst hm; simp [Member.with_share]
      · exact absurd hm (List.not_mem_nil m)
    · rw [hfl]
      simp only [List.filterMap_cons, List.filterMap_nil, Member.with_share,
        Member.new, List.sum_cons, List.sum_nil]
      rw [abs_le]
      constructor <;> norm_num

-- =========================================================================
-- HashMap / HashSet model lemmas for C8
-- =========================================================================

theorem alFindS_eq_none_of_not_mem {k : Str} {l : StrMap}
    (h : k ∉ l.map Prod.fst) : alFindS k l = none := by
  induction l with
  | nil => rfl
  | cons p rest ih =>
    rw [alFindS]
    have hne : p.1 ≠ k := by
      intro hcontra
      exact h (by rw [← hcontra]; exact List.mem_map_of_mem Prod.fst (List.mem_cons_self p rest))
    rw [if_neg hne]
    exact ih (fun hmem => h (List.mem_cons_of_mem _ hmem))

theorem hmInsert_lookup (m : StrMap) (k0 v0 k : Str) :
    alFindS k (hmInsert m k0 v0) = if k0 = k then some v0 else alFindS k m := by
  induction m with
  | nil =>
    simp [hmInsert, alFindS]
  | cons p rest ih =>
    rw [hmInsert]
    by_cases hp : p.1 = k0
    · rw [if_pos hp, alFindS, alFindS]
      by_cases hk : k0 = k
      · rw [if_pos hk, if_pos hk]
      · rw [if_neg hk, if_neg hk, if_neg (by rw [hp]; exact hk)]
    · rw [if_neg hp, alFindS]
      by_cases hpk : p.1 = k
      · rw [if_pos hpk]
        have hk : k0 ≠ k := by
          intro hcontra
          exact hp (by rw [hpk, hcontra])
        rw [if_neg hk, alFindS, if_pos hpk]
      · rw [if_neg hpk, ih, alFindS, if_neg hpk]

theorem hmExtend_lookup (override : StrMap) :
    ∀ (m : StrMap), (override.map Prod.fst).Nodup →
      ∀ k, alFindS k (hmExtend m override) =
        ((alFindS k override) <|> (alFindS k m)) := by
  induction override with
  | nil =>
    intro m _ k
    rfl
  | cons p rest ih =>
    intro m hnodup k
    have hstep : hmExtend m (p :: rest) = hmExtend (hmInsert m p.1 p.2) rest := rfl
    rw [hstep]
    have hnodup2 : (rest.map Prod.fst).Nodup := (List.nodup_cons.mp (by simpa using hnodup)).2
    rw [ih (hmInsert m p.1 p.2) hnodup2 k, hmInsert_lookup, alFindS]
    by_cases hk : p.1 = k
    · rw [if_pos hk, if_pos hk]
      have hnotmem : p.1 ∉ rest.map Prod.fst := (List.nodup_cons.mp (by simpa using hnodup)).1
      rw [hk] at hnotmem
      rw [alFindS_eq_none_of_not_mem hnotmem]
      rfl
    · rw [if_neg hk, if_neg hk]

theorem hsInsert_mem (s : List Str) (y x : Str) :
    x ∈ hsInsert s y ↔ x ∈ s ∨ x = y := by
  unfold hsInsert
  by_cases hmem : s.any (fun z => z = y)
  · rw [if_pos hmem]
    simp only [List.any_eq_true, decide_eq_true_eq] at hmem
    rcases hmem with ⟨z, hz, hzy⟩
    constructor
    · exact Or.inl
    · intro h
      rcases h with h | h
      · exact h
      · subst h; subst hzy; exact hz
  · rw [if_neg hmem]
    simp [List.mem_append]

theorem hsUnion_mem (b : List Str) :
    ∀ (a : List Str) (x : Str), x ∈ hsUnion a b ↔ x ∈ a ∨ x ∈ b := by
  induction b with
  | nil =>
    intro a x
    simp [hsUnion]
  | cons y ys ih =>
    intro a x
    have hstep : hsUnion a (y :: ys) = hsUnion (hsInsert a y) ys := rfl
    rw [hstep, ih, hsInsert_mem]
    simp only [List.mem_cons]
    tauto

-- =========================================================================
-- Claim theorems: C8, C9
-- =========================================================================

/-- C8: for a child config merged with its parent, the three maps are
child-wins unions (lookup in the merge is the child's lookup, falling back
to the parent's), the rules are the parent's followed by the child's, the
stop words are the set union, and the jurisdiction is the child's (with the
parent pointer retained). -/
theorem c8_merge_configs_semantics (child parent : LocalizationConfig)
    (h1 : (child.abbreviations.map Prod.fst).Nodup)
    (h2 : (child.agency_names.map Prod.fst).Nodup)
    (h3 : (child.entity_types.map Prod.fst).Nodup) :
    (∀ k, alFindS k (merge_configs child parent).abbreviations =
      ((alFindS k child.abbreviations) <|> (alFindS k parent.abbreviations))) ∧
    (∀ k, alFindS k (merge_configs child parent).agency_names =
      ((alFindS k child.agency_names) <|> (alFindS k parent.agency_names))) ∧
    (∀ k, alFindS k (merge_configs child parent).entity_types =
      ((alFindS k child.entity_types) <|> (alFindS k parent.entity_types))) ∧
    (merge_configs child parent).rules = parent.rules ++ child.rules ∧
    (∀ w, w ∈ (merge_configs child parent).stop_words ↔
      w ∈ parent.stop_words ∨ w ∈ child.stop_words) ∧
    (merge_configs child parent).jurisdiction = child.jurisdiction ∧
    (merge_configs child parent).parent = some parent.jurisdiction :=
  ⟨hmExtend_lookup child.abbreviations parent.abbreviations h1,
   hmExtend_lookup child.agency_names parent.agency_names h2,
   hmExtend_lookup child.entity_types parent.entity_types h3,
   rfl,
   fun w => hsUnion_mem child.stop_words parent.stop_words w,
   rfl, rfl⟩

/-- Sample child config for the merge witness. -/
def nyChildConfig : LocalizationConfig :=
  ⟨ofString "us/ny", some (ofString "us"),
    [(ofString "mta", ofString "metropolitan transportation authority")],
    [], [], [], [ofString "the"]⟩

/-- Sample parent config for the merge witness. -/
def usParentConfig : LocalizationConfig :=
  ⟨ofString "us", none,
    [(ofString "mta", ofString "parent value"),
     (ofString "doj", ofString "department of justice")],
    [], [], [], [ofString "of"]⟩

/-- C8 witness: the merge semantics applied to small concrete configs with
one colliding abbreviation key (the child wins) and one parent-only key
(the parent entry survives). -/
theorem c8_merge_configs_witness :
    alFindS (ofString "mta") (merge_configs nyChildConfig usParentConfig).abbreviations =
      some (ofString "metropolitan transportation authority") ∧
    alFindS (ofString "doj") (merge_configs nyChildConfig usParentConfig).abbreviations =
      some (ofString "department of justice") ∧
    (ofString "of") ∈ (merge_configs nyChildConfig usParentConfig).stop_words := by
  refine ⟨?_, ?_, ?_⟩
  · rw [(c8_merge_configs_semantics nyChildConfig usParentConfig
      (by decide) (by decide) (by decide)).1 (ofString "mta")]
    decide
  · rw [(c8_merge_configs_semantics nyChildConfig usParentConfig
      (by decide) (by decide) (by decide)).1 (ofString "doj")]
    decide
  · apply ((c8_merge_configs_semantics nyChildConfig usParentConfig
      (by decide) (by decide) (by decide)).2.2.2.2.1 (ofString "of")).mpr
    exact Or.inl (List.mem_cons_self _ _)

-- =========================================================================
-- Digit-rendering lemmas for C9
-- =========================================================================

theorem natDigitsAux_digits : ∀ (fuel n : Nat), ∀ c ∈ natDigitsAux fuel n,
    48 ≤ c ∧ c ≤ 57 := by
  intro fuel
  induction fuel with
  | zero => intro n c hc; exact absurd hc (List.not_mem_nil c)
  | succ f ih =>
    intro n c hc
    rw [natDigitsAux] at hc
    by_cases hn : n = 0
    · rw [if_pos hn] at hc
      exact absurd hc (List.not_mem_nil c)
    · rw [if_neg hn] at hc
      rcases List.mem_append.mp hc with hc | hc
      · exact ih (n / 10) c hc
      · simp only [List.mem_cons, List.not_mem_nil, or_false] at hc
        subst hc
        have := Nat.mod_lt n (show 0 < 10 by decide)
        omega

theorem natDigits_digits {n c : Nat} (hc : c ∈ natDigits n) : 48 ≤ c ∧ c ≤ 57 := by
  unfold natDigits at hc
  by_cases hn : n = 0
  · rw [if_pos hn] at hc
    simp only [List.mem_cons, List.not_mem_nil, or_false] at hc
    omega
  · rw [if_neg hn] at hc
    exact natDigitsAux_digits n n c hc

theorem natDigits_ne_nil (n : Nat) : natDigits n ≠ [] := by
  unfold natDigits
  by_cases hn : n = 0
  · rw [if_pos hn]
    exact List.cons_ne_nil 48 []
  · rw [if_neg hn]
    obtain ⟨f, hf⟩ : ∃ f, n = f + 1 := ⟨n - 1, by omega⟩
    rw [hf]
    show natDigitsAux (f + 1) (f + 1) ≠ []
    rw [natDigitsAux, if_neg (by omega : ¬ f + 1 = 0)]
    simp

theorem pad2_eq : ∀ m : Nat, m < 100 → padDigits 2 m = [48 + m / 10, 48 + m % 10] := by
  have hall : (List.range 100).all
      (fun m => padDigits 2 m == [48 + m / 10, 48 + m % 10]) = true := by decide
  intro m hm
  have := List.all_eq_true.mp hall m (List.mem_range.mpr hm)
  exact eq_of_beq this

/-- C9: the canonical amount is rendered with exactly two fractional digits
and no thousands separators, the leading minus sign appears exactly for
negative rounded amounts, an `ExchangeValue` with amount 50000.756
canonicalizes with field "amount" equal to "50000.76", and the rounding is
half away from zero (0.005 gives "0.01" and -0.005 gives "-0.01", where a
ties-to-even rule would give "0.00"). -/
theorem c9_amount_format :
    (∀ q : ℚ, ∃ intPart d1 d2, format_amount q = intPart ++ [46, d1, d2] ∧
      48 ≤ d1 ∧ d1 ≤ 57 ∧ 48 ≤ d2 ∧ d2 ≤ 57 ∧ 46 ∉ intPart ∧
      44 ∉ format_amount q) ∧
    (∀ n : ℤ, (renderFixed 2 n).head? = some 45 ↔ n < 0) ∧
    (fieldLookup ((ExchangeValue.usd (mkRat 50000756 1000)).canonical_fields)
      (ofString "amount") = some (ofString "50000.76")) ∧
    format_amount (mkRat 5 1000) = ofString "0.01" ∧
    format_amount (mkRat (-5) 1000) = ofString "-0.01" := by
  have hshape : ∀ n : ℤ, ∃ intPart d1 d2, renderFixed 2 n = intPart ++ [46, d1, d2] ∧
      48 ≤ d1 ∧ d1 ≤ 57 ∧ 48 ≤ d2 ∧ d2 ≤ 57 ∧ 46 ∉ intPart ∧
      44 ∉ renderFixed 2 n := by
    intro n
    have hlt : n.natAbs % 10 ^ 2 < 100 := Nat.mod_lt _ (by decide)
    set m := n.natAbs % 10 ^ 2 with hmdef
    refine ⟨(if n < 0 then [45] else []) ++ natDigits (n.natAbs / 10 ^ 2),
      48 + m / 10, 48 + m % 10, ?_, ?_, ?_, ?_, ?_, ?_, ?_⟩
    · rw [renderFixed, pad2_eq m hlt]
    · omega
    · omega
    · omega
    · omega
    · intro hmem
      rcases List.mem_append.mp hmem with hmem | hmem
      · by_cases hn : n < 0
        · rw [if_pos hn] at hmem
          simp at hmem
        · rw [if_neg hn] at hmem
          exact absurd hmem (List.not_mem_nil 46)
      · have := natDigits_digits hmem
        omega
    · intro hmem
      rw [renderFixed] at hmem
      rcases List.mem_append.mp hmem with hmem | hmem
      · rcases List.mem_append.mp hmem with hmem | hmem
        · by_cases hn : n < 0
          · rw [if_pos hn] at hmem
            simp at hmem
          · rw [if_neg hn] at hmem
            exact absurd hmem (List.not_mem_nil 44)
        · have := natDigits_digits hmem
          omega
      · rw [pad2_eq m hlt] at hmem
        simp only [List.mem_cons, List.not_mem_nil, or_false] at hmem
        omega
  refine ⟨fun q => hshape (roundHalfAway (100 * q.num) q.den), ?_, by decide, by decide,
    by decide⟩
  intro n
  by_cases hn : n < 0
  · rw [renderFixed, if_pos hn]
    simp only [List.cons_append, List.head?_cons]
    exact ⟨fun _ => hn, fun _ => by trivial⟩
  · rw [renderFixed, if_neg hn]
    simp only [List.nil_append]
    cases hnat : natDigits (n.natAbs / 10 ^ 2) with
    | nil => exact absurd hnat (natDigits_ne_nil _)
    | cons d ds =>
      have hd : 48 ≤ d ∧ d ≤ 57 := natDigits_digits (by rw [hnat]; exact List.mem_cons_self d ds)
      simp only [List.cons_append, List.head?_cons]
      constructor
      · intro hcontra
        injection hcontra with hcontra
        omega
      · intro hcontra
        exact absurd hcontra hn

-- =========================================================================
-- String-order lemmas and sorted-insertion lemmas for C6 / C10
-- =========================================================================

theorem strLt_irrefl : ∀ s : Str, strLt s s = false := by
  intro s
  induction s with
  | nil => rfl
  | cons x xs ih =>
    rw [strLt, if_neg (lt_irrefl x), if_pos rfl]
    exact ih

theorem strLt_asymm : ∀ a b : Str, strLt a b = true → strLt b a = false := by
  intro a
  induction a with
  | nil =>
    intro b hab
    cases b with
    | nil => exact absurd hab (by rw [strLt]; simp)
    | cons y bs => rfl
  | cons x xs ih =>
    intro b hab
    cases b with
    | nil => exact absurd hab (by rw [strLt]; simp)
    | cons y bs =>
      rw [strLt] at hab
      rw [strLt]
      by_cases hxy : x < y
      · rw [if_neg (Nat.lt_asymm hxy), if_neg (Nat.ne_of_gt hxy)]
      · rw [if_neg hxy] at hab
        by_cases heq : x = y
        · rw [if_pos heq] at hab
          rw [if_neg (by omega), if_pos heq.symm]
          exact ih bs hab
        · rw [if_neg heq] at hab
          exact absurd hab (by simp)

theorem strLt_trans : ∀ a b c : Str,
    strLt a b = true → strLt b c = true → strLt a c = true := by
  intro a
  induction a with
  | nil =>
    intro b c hab hbc
    cases b with
    | nil => exact absurd hab (by rw [strLt]; simp)
    | cons y bs =>
      cases c with
      | nil => exact absurd hbc (by rw [strLt]; simp)
      | cons z cs => rfl
  | cons x xs ih =>
    intro b c hab hbc
    cases b with
    | nil => exact absurd hab (by rw [strLt]; simp)
    | cons y bs =>
      cases c with
      | nil => exact absurd hbc (by rw [strLt]; simp)
      | cons z cs =>
        rw [strLt] at hab hbc
        rw [strLt]
        by_cases hxy : x < y
        · by_cases hyz : y < z
          · rw [if_pos (Nat.lt_trans hxy hyz)]
          · rw [if_neg hyz] at hbc
            by_cases hyz2 : y = z
            · rw [if_pos (hyz2 ▸ hxy)]
            · rw [if_neg hyz2] at hbc
              exact absurd hbc (by simp)
        · rw [if_neg hxy] at hab
          by_cases hxy2 : x = y
          · rw [if_pos hxy2] at hab
            by_cases hyz : y < z
            · rw [if_pos (hxy2 ▸ hyz)]
            · rw [if_neg hyz] at hbc
              by_cases hyz2 : y = z
              · rw [if_pos hyz2] at hbc
                rw [if_neg (by rw [hxy2, hyz2] at hxy ⊢; exact hyz2 ▸ hxy),
                  if_pos (hxy2.trans hyz2)]
                exact ih bs cs hab hbc
              · rw [if_neg hyz2] at hbc
                exact absurd hbc (by simp)
          · rw [if_neg hxy2] at hab
            exact absurd hab (by simp)

theorem strLt_total : ∀ a b : Str, strLt a b = false → a ≠ b → strLt b a = true := by
  intro a
  induction a with
  | nil =>
    intro b hab hne
    cases b with
    | nil => exact absurd rfl hne
    | cons y bs => exact absurd hab (by rw [strLt]; simp)
  | cons x xs ih =>
    intro b hab hne
    cases b with
    | nil => rfl
    | cons y bs =>
      rw [strLt] at hab
      rw [strLt]
      by_cases hxy : x < y
      · rw [if_pos hxy] at hab
        exact absurd hab (by simp)
      · rw [if_neg hxy] at hab
        by_cases heq : x = y
        · rw [if_pos heq] at hab
          have htls : xs ≠ bs := by
            intro hcontra
            exact hne (by rw [heq, hcontra])
          rw [if_neg (heq ▸ hxy), if_pos heq.symm]
          exact ih bs hab htls
        · have hyx : y < x := by
            rcases Nat.lt_trichotomy x y with h | h | h
            · exact absurd h hxy
            · exact absurd h heq
            · exact h
          rw [if_pos hyx]

/-- Member order used by the `BTreeSet` model: strictly ascending entity id. -/
def memberLt (a b : Member) : Prop := strLt a.entity_id b.entity_id = true

theorem mmAdd_subset : ∀ (s : MultilateralMembers) (m y : Member),
    y ∈ mmAdd s m → y ∈ s ∨ y = m := by
  intro s m
  induction s with
  | nil =>
    intro y hy
    simp only [mmAdd, List.mem_cons, List.not_mem_nil, or_false] at hy
    exact Or.inr hy
  | cons x xs ih =>
    intro y hy
    rw [mmAdd] at hy
    split_ifs at hy with h1 h2
    · rcases List.mem_cons.mp hy with hy | hy
      · exact Or.inr hy
      · exact Or.inl hy
    · exact Or.inl hy
    · rcases List.mem_cons.mp hy with hy | hy
      · exact Or.inl (by rw [hy]; exact List.mem_cons_self x xs)
      · rcases ih y hy with hy2 | hy2
        · exact Or.inl (List.mem_cons_of_mem x hy2)
        · exact Or.inr hy2

theorem mmAdd_perm : ∀ (s : MultilateralMembers) (m : Member),
    m.entity_id ∉ s.map Member.entity_id → (mmAdd s m).Perm (m :: s) := by
  intro s m
  induction s with
  | nil => intro _; exact List.Perm.refl [m]
  | cons x xs ih =>
    intro hnot
    rw [mmAdd]
    have hne : m.entity_id ≠ x.entity_id := by
      intro hcontra
      exact hnot (by rw [hcontra, List.map_cons]; exact List.mem_cons_self _ _)
    split_ifs with h1
    · exact List.Perm.refl _
    · have hxs : m.entity_id ∉ xs.map Member.entity_id := by
        intro hmem
        exact hnot (by rw [List.map_cons]; exact List.mem_cons_of_mem _ hmem)
      exact ((ih hxs).cons x).trans (List.Perm.swap m x xs)

theorem mmAdd_sorted : ∀ (s : MultilateralMembers) (m : Member),
    s.Pairwise memberLt → (mmAdd s m).Pairwise memberLt := by
  intro s m
  induction s with
  | nil => intro _; simp [mmAdd]
  | cons x xs ih =>
    intro hp
    have hx := (List.pairwise_cons.mp hp).1
    have hxs := (List.pairwise_cons.mp hp).2
    rw [mmAdd]
    split_ifs with h1 h2
    · refine List.pairwise_cons.mpr ⟨?_, hp⟩
      intro y hy
      rcases List.mem_cons.mp hy with hy | hy
      · rw [hy]; exact h1
      · exact strLt_trans _ _ _ h1 (hx y hy)
    · exact hp
    · refine List.pairwise_cons.mpr ⟨?_, ih hxs⟩
      intro y hy
      rcases mmAdd_subset xs m y hy with hy2 | hy2
      · exact hx y hy2
      · rw [hy2]
        exact strLt_total _ _ (by simpa using h1) h2

theorem mmFromList_sorted_aux : ∀ (l : List Member) (acc : MultilateralMembers),
    acc.Pairwise memberLt → (List.foldl mmAdd acc l).Pairwise memberLt := by
  intro l
  induction l with
  | nil => intro acc h; exact h
  | cons x xs ih =>
    intro acc h
    exact ih (mmAdd acc x) (mmAdd_sorted acc x h)

theorem mmFromList_sorted (l : List Member) : (mmFromList l).Pairwise memberLt :=
  mmFromList_sorted_aux l [] (List.Pairwise.nil)

theorem mmAdd_mem_ids_eq : ∀ (s : MultilateralMembers) (m : Member),
    s.Pairwise memberLt → m.entity_id ∈ s.map Member.entity_id → mmAdd s m = s := by
  intro s m
  induction s with
  | nil =>
    intro _ hmem
    exact absurd hmem (by simp)
  | cons x xs ih =>
    intro hp hmem
    have hx := (List.pairwise_cons.mp hp).1
    have hxs := (List.pairwise_cons.mp hp).2
    rw [List.map_cons, List.mem_cons] at hmem
    rw [mmAdd]
    rcases hmem with hmem | hmem
    · rw [if_neg (by rw [hmem]; simp [strLt_irrefl]), if_pos hmem]
    · rcases List.mem_map.mp hmem with ⟨z, hz, hzid⟩
      have hxm : strLt x.entity_id m.entity_id = true := by
        rw [← hzid]
        exact hx z hz
      rw [if_neg (by rw [strLt_asymm _ _ hxm]; simp),
        if_neg (by intro hcontra; rw [hcontra] at hxm; rw [strLt_irrefl] at hxm; exact absurd hxm (by simp)),
        ih hxs hmem]

theorem sorted_perm_eq {l1 l2 : List Member} (hp : l1.Perm l2)
    (h1 : l1.Pairwise memberLt) (h2 : l2.Pairwise memberLt) : l1 = l2 := by
  haveI : IsAntisymm Member memberLt := ⟨by
    intro a b hab hba
    simp only [memberLt] at hab hba
    rw [strLt_asymm _ _ hab] at hba
    exact absurd hba (by simp)⟩
  exact List.eq_of_perm_of_sorted hp h1 h2

theorem mmFromList_perm_aux : ∀ (l : List Member) (acc : MultilateralMembers),
    (((acc ++ l).map Member.entity_id).Nodup) →
    (List.foldl mmAdd acc l).Perm (acc ++ l) := by
  intro l
  induction l with
  | nil =>
    intro acc _
    simp
  | cons x xs ih =>
    intro acc hnodup
    rw [List.map_append, List.map_cons] at hnodup
    obtain ⟨hleft, hright, hdisj⟩ := List.nodup_append.mp hnodup
    have hxnot : x.entity_id ∉ acc.map Member.entity_id := by
      intro hmem
      exact hdisj hmem (List.mem_cons_self _ _)
    have hperm1 : (mmAdd acc x).Perm (x :: acc) := mmAdd_perm acc x hxnot
    have hidperm : ((mmAdd acc x).map Member.entity_id ++ xs.map Member.entity_id).Perm
        (acc.map Member.entity_id ++ x.entity_id :: xs.map Member.entity_id) := by
      refine List.Perm.trans ((hperm1.map Member.entity_id).append_right _) ?_
      exact List.perm_middle.symm
    have hnodup2 : (((mmAdd acc x) ++ xs).map Member.entity_id).Nodup := by
      rw [List.map_append]
      exact hidperm.nodup_iff.mpr hnodup
    exact ((ih (mmAdd acc x) hnodup2).trans (hperm1.append_right xs)).trans
      List.perm_middle.symm

theorem mmFromList_perm (l : List Member)
    (hnodup : (l.map Member.entity_id).Nodup) : (mmFromList l).Perm l :=
  mmFromList_perm_aux l [] (by simpa using hnodup)

-- =========================================================================
-- Claim theorems: C6, C10
-- =========================================================================

/-- C6 counterexample: two members sharing an entity id but carrying
different role URIs form the same collection in either order, yet the two
insertion orders build sets with different canonical strings (the first
inserted member wins), so the claim fails for collections with duplicate
entity ids. -/
theorem c6_duplicate_id_counterexample :
    ([⟨ofString "a", ofString "r1", none⟩, ⟨ofString "a", ofString "r2", none⟩] :
        List Member).Perm
      [⟨ofString "a", ofString "r2", none⟩, ⟨ofString "a", ofString "r1", none⟩] ∧
    mmToCanonicalString (mmFromList
        [⟨ofString "a", ofString "r1", none⟩, ⟨ofString "a", ofString "r2", none⟩]) ≠
      mmToCanonicalString (mmFromList
        [⟨ofString "a", ofString "r2", none⟩, ⟨ofString "a", ofString "r1", none⟩]) := by
  constructor
  · exact List.Perm.swap _ _ _
  · decide

/-- C6 (amended: the inserted members must have pairwise distinct entity
ids, as duplicates keep the first-inserted payload): two member sets built
by `add` from the same collection of members with distinct entity ids,
inserted in any order, are the same set — in particular their canonical
strings are identical, with members in ascending entity-id order. -/
theorem c6_insertion_order_invariance (l1 l2 : List Member)
    (hperm : l1.Perm l2) (hnodup : (l1.map Member.entity_id).Nodup) :
    mmFromList l1 = mmFromList l2 ∧
    mmToCanonicalString (mmFromList l1) = mmToCanonicalString (mmFromList l2) ∧
    (mmFromList l1).Pairwise memberLt := by
  have hnodup2 : (l2.map Member.entity_id).Nodup :=
    ((hperm.map Member.entity_id).nodup_iff).mp hnodup
  have h1 := mmFromList_perm l1 hnodup
  have h2 := mmFromList_perm l2 hnodup2
  have heq : mmFromList l1 = mmFromList l2 :=
    sorted_perm_eq (h1.trans (hperm.trans h2.symm))
      (mmFromList_sorted l1) (mmFromList_sorted l2)
  exact ⟨heq, congrArg mmToCanonicalString heq, mmFromList_sorted l1⟩

/-- C6 witness: the six insertion orders of the members bank-001,
citizen-005, regulator-002 all produce the same canonical string. -/
theorem c6_insertion_order_witness :
    (mmToCanonicalString (mmFromList
      [Member.new (ofString "bank-001") (ofString "role"),
       Member.new (ofString "citizen-005") (ofString "role"),
       Member.new (ofString "regulator-002") (ofString "role")]) =
     mmToCanonicalString (mmFromList
      [Member.new (ofString "bank-001") (ofString "role"),
       Member.new (ofString "regulator-002") (ofString "role"),
       Member.new (ofString "citizen-005") (ofString "role")])) ∧
    (mmToCanonicalString (mmFromList
      [Member.new (ofString "bank-001") (ofString "role"),
       Member.new (ofString "citizen-005") (ofString "role"),
       Member.new (ofString "regulator-002") (ofString "role")]) =
     mmToCanonicalString (mmFromList
      [Member.new (ofString "citizen-005") (ofString "role"),
       Member.new (ofString "bank-001") (ofString "role"),
       Member.new (ofString "regulator-002") (ofString "role")])) ∧
    (mmToCanonicalString (mmFromList
      [Member.new (ofString "bank-001") (ofString "role"),
       Member.new (ofString "citizen-005") (ofString "role"),
       Member.new (ofString "regulator-002") (ofString "role")]) =
     mmToCanonicalString (mmFromList
      [Member.new (ofString "citizen-005") (ofString "role"),
       Member.new (ofString "regulator-002") (ofString "role"),
       Member.new (ofString "bank-001") (ofString "role")])) ∧
    (mmToCanonicalString (mmFromList
      [Member.new (ofString "bank-001") (ofString "role"),
       Member.new (ofString "citizen-005") (ofString "role"),
       Member.new (ofString "regulator-002") (ofString "role")]) =
     mmToCanonicalString (mmFromList
      [Member.new (ofString "regulator-002") (ofString "role"),
       Member.new (ofString "bank-001") (ofString "role"),
       Member.new (ofString "citizen-005") (ofString "role")])) ∧
    (mmToCanonicalString (mmFromList
      [Member.new (ofString "bank-001") (ofString "role"),
       Member.new (ofString "citizen-005") (ofString "role"),
       Member.new (ofString "regulator-002") (ofString "role")]) =
     mmToCanonicalString (mmFromList
      [Member.new (ofString "regulator-002") (ofString "role"),
       Member.new (ofString "citizen-005") (ofString "role"),
       Member.new (ofString "bank-001") (ofString "role")])) :=
  ⟨(c6_insertion_order_invariance _ _ (by decide) (by decide)).2.1,
   (c6_insertion_order_invariance _ _ (by decide) (by decide)).2.1,
   (c6_insertion_order_invariance _ _ (by decide) (by decide)).2.1,
   (c6_insertion_order_invariance _ _ (by decide) (by decide)).2.1,
   (c6_insertion_order_invariance _ _ (by decide) (by decide)).2.1⟩

/-- C10: member equality and ordering compare `entity_id` only, so adding a
member whose entity id is already in the set leaves the set unchanged —
the length does not grow and the canonical string (which carries the
originally inserted member's role URI and participation share) is
untouched. -/
theorem c10_add_same_id_keeps_original (l : List Member) (m : Member)
    (h : m.entity_id ∈ (mmFromList l).map Member.entity_id) :
    mmAdd (mmFromList l) m = mmFromList l ∧
    (mmAdd (mmFromList l) m).length = (mmFromList l).length ∧
    mmToCanonicalString (mmAdd (mmFromList l) m) = mmToCanonicalString (mmFromList l) := by
  have heq := mmAdd_mem_ids_eq (mmFromList l) m (mmFromList_sorted l) h
  exact ⟨heq, by rw [heq], by rw [heq]⟩

/-- C10 witness: adding a member with the entity id "a" but a different
role URI and a participation share to a set already containing an "a"
member keeps the original member and its canonical string. -/
theorem c10_add_same_id_witness :
    mmAdd (mmFromList [Member.new (ofString "a") (ofString "r1")])
        ((Member.new (ofString "a") (ofString "r2")).with_share (mkRat 1 2)) =
      mmFromList [Member.new (ofString "a") (ofString "r1")] ∧
    mmToCanonicalString (mmAdd (mmFromList [Member.new (ofString "a") (ofString "r1")])
        ((Member.new (ofString "a") (ofString "r2")).with_share (mkRat 1 2))) =
      mmToCanonicalString (mmFromList [Member.new (ofString "a") (ofString "r1")]) :=
  ⟨(c10_add_same_id_keeps_original [Member.new (ofString "a") (ofString "r1")]
      ((Member.new (ofString "a") (ofString "r2")).with_share (mkRat 1 2)) (by decide)).1,
   (c10_add_same_id_keeps_original [Member.new (ofString "a") (ofString "r1")]
      ((Member.new (ofString "a") (ofString "r2")).with_share (mkRat 1 2)) (by decide)).2.2⟩

end CEP
